import Mathlib

/-!
Verification of the content-discovery and live-synchronization subsystem of
`vitepress-plugin-blog`, as a shallow embedding in Lean.

The embedding models:
* `scanBlogPosts` (src/packages/vitepress-plugin-blog/src/plugin.ts): frontmatter
  defaults, URL/slug derivation, reading time, unpublished filtering and the
  date-descending stable sort;
* `generateBlogSidebar` (src/sidebar.ts) / `generateSidebarFromPosts`;
* `handleHotUpdate` (plugin.ts): the qualifying-change test and the emitted events;
* the JSON snapshot transport (`transformIndexHtml` serialization and the
  client-side `JSON.parse`), modelled by an executable JSON printer and parser;
* the client reconciler (`setupHmrListener`, `patchVitePressSidebar`).

Modelling conventions:
* JavaScript strings are Lean `String` (a wrapper around `List Char`); the ASCII
  whitespace classes used by `/\s+/`, `trim()` and friends are modelled on the
  common ASCII whitespace characters.
* `Math.round(words / wpm)` on non-negative doubles is modelled as exact rational
  rounding `(2 * words + wpm) / (2 * wpm)` in `Nat`; for word counts and
  words-per-minute values in the representable range the double computation
  agrees with the exact one.
* `Date.parse` is modelled for the ISO `YYYY-MM-DD` date-only format (the format
  the specification assigns to the `date` field); any other non-empty string is
  modelled as an unparsable date (`none`, the analogue of `NaN`).
* `Array.prototype.sort` with the comparator `(a, b) => bTime - aTime` is
  modelled as a stable insertion sort; ECMAScript guarantees stability and
  comparator-consistency of the result, which determine the output uniquely
  whenever the comparator is consistent (all sort keys defined). When a key is
  `NaN` the ECMAScript comparator result is coerced to `+0`; the model treats
  such elements as tying with everything, one faithful choice within the
  implementation-defined ECMAScript behavior.
-/

/-! ## Character and string utilities shared by the extractor -/

/-- The ASCII whitespace characters matched by the JavaScript `\s` class
(space, tab, line feed, vertical tab, form feed, carriage return). -/
def isWsChar (c : Char) : Bool :=
  c = ' ' || c = '\t' || c = '\n' || c = '\x0b' || c = '\x0c' || c = '\r'

/-- Word counter: number of maximal runs of non-whitespace characters, i.e.
`rawContent.trim().split(/\s+/).filter(Boolean).length`. The flag records
whether the previous character was inside a word. -/
def wordCountAux : List Char → Bool → Nat
  | [], _ => 0
  | c :: r, inWord =>
    if isWsChar c then wordCountAux r false
    else (if inWord then 0 else 1) + wordCountAux r true

/-- `s.trim().split(/\s+/).filter(Boolean).length` from `scanBlogPosts`. -/
def wordCount (s : String) : Nat := wordCountAux s.data false

/-- Whitespace-run collapsing, `replace(/\s+/g, ' ')`. The flag records whether
the previous input character was whitespace (so the run already emitted its
single space). -/
def collapseWsAux : Bool → List Char → List Char
  | _, [] => []
  | prevWs, c :: r =>
    if isWsChar c then
      if prevWs then collapseWsAux true r else ' ' :: collapseWsAux true r
    else c :: collapseWsAux false r

def collapseWs (l : List Char) : List Char := collapseWsAux false l

/-- `String.prototype.trim()` on the modelled whitespace class. -/
def trimChars (l : List Char) : List Char :=
  ((l.dropWhile isWsChar).reverse.dropWhile isWsChar).reverse

/-- Split a character list at the first `'>'`: `splitAtGt l = some (m, b)` iff
`l = m ++ '>' :: b` with no `'>'` in `m`. Used to locate the end of an
HTML-like tag, mirroring that `[^>]+` in `/<[^>]+>/` cannot run past a `'>'`. -/
def splitAtGt : List Char → Option (List Char × List Char)
  | [] => none
  | c :: r =>
    if c = '>' then some ([], r)
    else (splitAtGt r).map (fun p => (c :: p.1, p.2))

/-- Fuel-driven implementation of `replace(/<[^>]+>/g, ' ')`: each maximal
`<`…`>` group with at least one non-`'>'` character in between is replaced by a
single space. Fuel at least the length of the input makes the recursion total
and keeps the definition kernel-computable. -/
def stripTagsFuel : Nat → List Char → List Char
  | 0, l => l
  | _ + 1, [] => []
  | n + 1, c :: r =>
    if c = '<' then
      match splitAtGt r with
      | some (m, b) =>
        if m.isEmpty then c :: stripTagsFuel n r else ' ' :: stripTagsFuel n b
      | none => c :: stripTagsFuel n r
    else c :: stripTagsFuel n r

def stripTags (l : List Char) : List Char := stripTagsFuel l.length l

/-- `rawDescription.replace(/<[^>]+>/g, ' ').replace(/\s+/g, ' ').trim()` from
`scanBlogPosts` and `transformPost`. -/
def cleanDescription (s : String) : String :=
  String.mk (trimChars (collapseWs (stripTags s.data)))

/-- Is there a match of `/<[^>]+>/` starting at this position, i.e. does the
rest of the input (after a `'<'`) start with at least one non-`'>'` character
followed by a `'>'`? -/
def tagHere (r : List Char) : Bool :=
  match splitAtGt r with
  | some (m, _) => !m.isEmpty
  | none => false

/-- Does the list contain a match of `/<[^>]+>/`, i.e. a `'<'`, then at least
one character none of which is `'>'`, then a `'>'`? -/
def hasTag : List Char → Bool
  | [] => false
  | c :: r => (decide (c = '<') && tagHere r) || hasTag r

/-! ## Prefix / suffix / substring tests on character lists -/

/-- Boolean test that `pat` is a leading segment of `l`. -/
def pfxB : List Char → List Char → Bool
  | [], _ => true
  | _ :: _, [] => false
  | a :: as, b :: bs => a = b && pfxB as bs

/-- Boolean test that `pat` is a trailing segment of `l`
(JavaScript `l.endsWith(pat)`). -/
def sfxB (pat l : List Char) : Bool := pfxB pat.reverse l.reverse

/-- Boolean test that `pat` occurs contiguously inside `l`
(JavaScript `l.includes(pat)`). -/
def containsSub (pat : List Char) : List Char → Bool
  | [] => pat.isEmpty
  | c :: r => pfxB pat (c :: r) || containsSub pat r

/-- `replace(/\\/g, '/')`: path-separator normalization. -/
def normSlashes (s : String) : String :=
  String.mk (s.data.map (fun c => if c = '\\' then '/' else c))

/-! ## `Date.parse` for ISO `YYYY-MM-DD` dates -/

def digitVal (c : Char) : Option Nat :=
  if c.isDigit then some (c.toNat - 48) else none

def isLeapYear (y : Nat) : Bool :=
  (y % 4 = 0 && y % 100 ≠ 0) || y % 400 = 0

def daysInMonth (y m : Nat) : Nat :=
  if m = 1 then 31
  else if m = 2 then (if isLeapYear y then 29 else 28)
  else if m = 3 then 31
  else if m = 4 then 30
  else if m = 5 then 31
  else if m = 6 then 30
  else if m = 7 then 31
  else if m = 8 then 31
  else if m = 9 then 30
  else if m = 10 then 31
  else if m = 11 then 30
  else 31

/-- Days from 1970-01-01 (UTC) to year `y`, month `m`, day `d`, for
`0 ≤ y ≤ 9999`. Standard civil-calendar computation, shifted by 400 years to
stay in `Nat` internally; `865565` is the value of the shifted day number at
1970-01-01. -/
def epochDays (y m d : Nat) : Int :=
  let yy := y + 400
  let y' := if m ≤ 2 then yy - 1 else yy
  let era := y' / 400
  let yoe := y' % 400
  let mShift := if m > 2 then m - 3 else m + 9
  let doy := (153 * mShift + 2) / 5 + d - 1
  let doe := yoe * 365 + yoe / 4 - yoe / 100 + doy
  (Int.ofNat (era * 146097 + doe)) - 865565

/-- `Date.parse` restricted to the date-only ISO form `YYYY-MM-DD` (the format
specified for the `date` field): returns the UTC timestamp in milliseconds, or
`none` (the model of `NaN`) when the string is not a valid date of this form. -/
def parseISODate (s : String) : Option Int :=
  match s.data with
  | [y1, y2, y3, y4, h1, m1, m2, h2, d1, d2] =>
    if h1 = '-' && h2 = '-' then
      match digitVal y1, digitVal y2, digitVal y3, digitVal y4,
            digitVal m1, digitVal m2, digitVal d1, digitVal d2 with
      | some a, some b, some c, some dd, some e, some f, some g, some h =>
        let y := ((a * 10 + b) * 10 + c) * 10 + dd
        let m := e * 10 + f
        let d := g * 10 + h
        if 1 ≤ m && m ≤ 12 && 1 ≤ d && d ≤ daysInMonth y m then
          some (epochDays y m d * 86400000)
        else none
      | _, _, _, _, _, _, _, _ => none
    else none
  | _ => none

example : parseISODate "1970-01-01" = some 0 := by decide
example : parseISODate "1969-12-31" = some (-86400000) := by decide
example : parseISODate "2024-01-01" = some 1704067200000 := by decide
example : parseISODate "2024-02-01" = some 1706745600000 := by decide
example : parseISODate "2024-02-30" = none := by decide
example : parseISODate "not-a-date" = none := by decide

/-! ## Stable sort (model of `Array.prototype.sort` with a comparator) -/

/-- Insert `a` before the first element `b` with `le a b`; later elements keep
their order. With `le a b = true` on ties this is the stable insertion point. -/
def insertB (le : α → α → Bool) (a : α) : List α → List α
  | [] => [a]
  | b :: bs => if le a b then a :: b :: bs else b :: insertB le a bs

/-- Stable insertion sort. For a consistent comparator ECMAScript pins the
result of `Array.prototype.sort` down to exactly the stable sorted order, which
this function produces. -/
def sortB (le : α → α → Bool) : List α → List α
  | [] => []
  | a :: as => insertB le a (sortB le as)

/-! ## Data model -/

/-- The frontmatter fields read by the scanner and the data loader. `none`
models an absent field (and, for `tags`, a non-array value; for `published`,
any non-`false` value behaves like `none` under the `=== false` test). -/
structure Frontmatter where
  title : Option String
  description : Option String
  date : Option String
  tags : Option (List String)
  author : Option String
  slug : Option String
  cover : Option String
  published : Option Bool
deriving DecidableEq, Repr

/-- One file produced by the recursive directory walk of `scanBlogPosts`, in
walk order. `relPath` is `path.relative(docsDir, fullPath)`; `parseOk` is false
when `gray-matter` throws on the file (the `catch` branch skips it). -/
structure SourceFile where
  relPath : String
  parseOk : Bool
  fm : Frontmatter
  body : String
deriving DecidableEq, Repr

/-- The `BlogPostEntry` record assembled by `scanBlogPosts` /
`transformPost`. -/
structure BlogPostEntry where
  title : String
  description : String
  date : String
  tags : List String
  author : String
  url : String
  slug : String
  readingTime : Nat
  cover : Option String
  source : String
  published : Bool
deriving DecidableEq, Repr

/-! ## URL, slug and reading time derivation (`scanBlogPosts`) -/

/-- `relativePath.replace(/\.md$/, '')` on character lists: strip a trailing
`.md` (at most one occurrence, at the end only). -/
def stripMdExt (l : List Char) : List Char :=
  if sfxB ".md".data l then l.take (l.length - 3) else l

/-- `.replace(/\/index$/, '/')`: collapse a trailing `/index` to `/`. -/
def collapseIndex (l : List Char) : List Char :=
  if sfxB "/index".data l then l.take (l.length - 6) ++ ['/'] else l

/-- `'/' + relativePath.replace(/\\/g, '/').replace(/\.md$/, '').replace(/\/index$/, '/')`. -/
def urlOf (relPath : String) : String :=
  String.mk ('/' :: collapseIndex (stripMdExt (normSlashes relPath).data))

/-- `url.replace(/\/$/, '')`: drop one trailing slash. -/
def dropTrailingSlash (l : List Char) : List Char :=
  if sfxB "/".data l then l.take (l.length - 1) else l

/-- `split('/').pop()`: the segment after the last `'/'` (the whole list when
there is no `'/'`). -/
def lastSegment (l : List Char) : List Char :=
  ((l.reverse.takeWhile (fun c => c ≠ '/'))).reverse

/-- `.replace(/\.html$/, '')`. -/
def stripHtmlExt (l : List Char) : List Char :=
  if sfxB ".html".data l then l.take (l.length - 5) else l

/-- `frontmatter.slug ?? url.replace(/\/$/, '').split('/').pop()?.replace(/\.html$/, '') ?? ''`. -/
def slugOf (fmSlug : Option String) (url : String) : String :=
  match fmSlug with
  | some s => s
  | none => String.mk (stripHtmlExt (lastSegment (dropTrailingSlash url.data)))

/-- Exact rounding of `words / wpm` to the nearest integer, halves up: the
value of `Math.round(words / wordsPerMinute)` (for `wpm > 0`; see the header
note on the double-precision model). -/
def natRound (words wpm : Nat) : Nat := (2 * words + wpm) / (2 * wpm)

/-! ## The scanner (`scanBlogPosts` in plugin.ts) -/

/-- Per-file processing of `scanBlogPosts`: the `.md` name filter, the
`gray-matter` `try`/`catch`, the `published === false` skip, and the field
assembly (in source order). Returns `none` exactly when the file contributes no
entry. -/
def extractPost (wpm : Nat) (f : SourceFile) : Option BlogPostEntry :=
  if ¬ sfxB ".md".data f.relPath.data then none
  else if ¬ f.parseOk then none
  else if f.fm.published = some false then none
  else
    let url := urlOf f.relPath
    some
      { title := f.fm.title.getD "Untitled post"
        description := cleanDescription (f.fm.description.getD "")
        date := f.fm.date.getD ""
        tags := f.fm.tags.getD []
        author := f.fm.author.getD "Anonymous"
        url := url
        slug := slugOf f.fm.slug url
        readingTime := max 1 (natRound (wordCount f.body) wpm)
        cover := f.fm.cover
        source := f.relPath
        published := true }

/-- The scanned entries before the final sort, in walk order. -/
def preScanList (files : List SourceFile) (wpm : Nat) : List BlogPostEntry :=
  files.filterMap (extractPost wpm)

/-- `a.date ? Date.parse(a.date) : 0`: the sort key; `none` models `NaN`
(non-empty unparsable date). -/
def dateKey (e : BlogPostEntry) : Option Int :=
  if e.date = "" then some 0 else parseISODate e.date

/-- The comparator `(a, b) => bTime - aTime` as a "may `a` stay before `b`"
test (`cmp(a, b) <= 0`). A `NaN` difference is coerced to `+0` by ECMAScript's
SortCompare, i.e. it ties. -/
def dateCmpLe (a b : BlogPostEntry) : Bool :=
  match dateKey a, dateKey b with
  | some x, some y => decide (y ≤ x)
  | _, _ => true

/-- `scanBlogPosts(docsDir, postsDir, wordsPerMinute)`, as a function of the
files found under `docsDir/postsDir` in walk order (a missing directory is the
empty walk). -/
def scanBlogPosts (files : List SourceFile) (wpm : Nat) : List BlogPostEntry :=
  sortB dateCmpLe (preScanList files wpm)

/-- Total sort key, valid on entries whose date is empty or ISO-parsable. -/
def sortKey (e : BlogPostEntry) : Int := (dateKey e).getD 0

def keyLe (a b : BlogPostEntry) : Bool := decide (sortKey b ≤ sortKey a)

/-! ## The sidebar generator (`generateBlogSidebar` in sidebar.ts, identical to
the internal `generateSidebarFromPosts` helper in plugin.ts) -/

/-- The recursive `SidebarItem` interface: `text`, optional `link`, optional
nested `items`, optional `collapsed`. -/
inductive SidebarItem where
  | mk (text : String) (link : Option String) (items : Option (List SidebarItem)) (collapsed : Option Bool)

def SidebarItem.text : SidebarItem → String
  | .mk t _ _ _ => t

def SidebarItem.link : SidebarItem → Option String
  | .mk _ l _ _ => l

def SidebarItem.items : SidebarItem → Option (List SidebarItem)
  | .mk _ _ i _ => i

def SidebarItem.collapsed : SidebarItem → Option Bool
  | .mk _ _ _ c => c

structure BlogSidebarOptions where
  basePath : Option String
  recentPostsCount : Option Nat
  allPostsLabel : Option String
  recentPostsLabel : Option String
  recentPostsCollapsed : Option Bool

/-- The always-emitted first group: `{ text: 'Blog', items: [{ text: allPostsLabel, link: basePath }] }`. -/
def blogGroup (o : BlogSidebarOptions) : SidebarItem :=
  .mk "Blog" none
    (some [.mk (o.allPostsLabel.getD "All posts") (some (o.basePath.getD "/blog/")) none none])
    none

/-- The recent-posts group built from `recentPosts.map(post => ({text: post.title, link: post.url}))`. -/
def recentGroup (o : BlogSidebarOptions) (recentPosts : List BlogPostEntry) : SidebarItem :=
  .mk (o.recentPostsLabel.getD "Recent posts") none
    (some (recentPosts.map (fun p => .mk p.title (some p.url) none none)))
    (some (o.recentPostsCollapsed.getD false))

/-- `generateBlogSidebar(posts, options)`. -/
def generateBlogSidebar (posts : List BlogPostEntry) (o : BlogSidebarOptions) : List SidebarItem :=
  let recentPosts := posts.take (o.recentPostsCount.getD 5)
  let sidebar := [blogGroup o]
  if recentPosts.length > 0 then sidebar ++ [recentGroup o recentPosts] else sidebar

/-- `generateSidebarFromPosts` in plugin.ts has the same body as
`generateBlogSidebar` in sidebar.ts, line for line. -/
def generateSidebarFromPosts (posts : List BlogPostEntry) (o : BlogSidebarOptions) : List SidebarItem :=
  generateBlogSidebar posts o

/-! ## The change broadcaster (`handleHotUpdate` in plugin.ts) -/

inductive HmrEvent where
  | postsUpdate (posts : List BlogPostEntry)
  | sidebarUpdate (sidebar : List SidebarItem)

/-- The qualifying-change test:
`normalizedFile.includes(normalizedPostsDir) && file.endsWith('.md')`, with
`normalized* = *.replace(/\\/g, '/')`. -/
def qualifiesHotUpdate (file postsDir : String) : Bool :=
  containsSub (normSlashes postsDir).data (normSlashes file).data
    && sfxB ".md".data file.data

/-- `handleHotUpdate({file, server})` as the list of custom websocket events it
sends, given the current posts-directory contents. A non-qualifying change
sends nothing. -/
def handleHotUpdate (files : List SourceFile) (file postsDir : String)
    (wpm : Nat) (o : BlogSidebarOptions) : List HmrEvent :=
  if qualifiesHotUpdate file postsDir then
    let posts := scanBlogPosts files wpm
    [.postsUpdate posts, .sidebarUpdate (generateSidebarFromPosts posts o)]
  else []

/-! ## The client reconciler (index.ts `setupHmrListener`) -/

/-- The `blog-posts-update` handler: `if (Array.isArray(newPosts))
globalPostsRef.value = [...newPosts]` — a wholesale replacement of the held
collection when the payload is an array, and a no-op otherwise. `Option`
models the `Array.isArray` guard (a non-array payload is `none`). -/
def applyPostsUpdate (held : List BlogPostEntry) (payload : Option (List BlogPostEntry)) :
    List BlogPostEntry :=
  match payload with
  | some newPosts => newPosts
  | none => held

/-! ## The data-loader metadata extractor (`transformPost` in the
`blogPosts.data` loader module) -/

/-- A raw post as handed to `transform` by `createContentLoader(..., {excerpt:
true, includeSrc: true})`: the page URL, frontmatter, the auto-derived excerpt
(caller-supplied), and the raw source text. -/
structure RawPost where
  url : String
  frontmatter : Frontmatter
  excerpt : Option String
  src : Option String
deriving DecidableEq, Repr

/-- `transformPost(post)` from the data loader, with its fixed
`WORDS_PER_MINUTE = 220`; note `description` falls back to `post.excerpt`
before `''`, `slug` does not strip `.html`, and `source` is the raw text. -/
def transformPost (p : RawPost) : BlogPostEntry :=
  let sourceContent := p.src.getD ""
  let readingTime := max 1 (natRound (wordCount sourceContent) 220)
  let description := cleanDescription ((p.frontmatter.description).getD (p.excerpt.getD ""))
  let slug :=
    match p.frontmatter.slug with
    | some s => s
    | none => String.mk (lastSegment (dropTrailingSlash p.url.data))
  { title := p.frontmatter.title.getD "Untitled post"
    description := description
    date := p.frontmatter.date.getD ""
    tags := p.frontmatter.tags.getD []
    author := p.frontmatter.author.getD "Anonymous"
    url := p.url
    slug := slug
    readingTime := readingTime
    cover := p.frontmatter.cover
    source := sourceContent
    published := p.frontmatter.published.getD true }

/-! ## The navigation DOM patch (`patchVitePressSidebar` in index.ts /
useBlogSidebar.ts) -/

/-- One rendered line item inside a rendered sidebar group: its `.text`
element's content and its anchor's `href`. -/
structure RenderedItem where
  itemText : String
  itemHref : String
deriving DecidableEq, Repr

/-- One rendered top-level sidebar group (`.VPSidebarItem.level-0`): its title
element's text and its nested rendered link items, in document order. -/
structure RenderedGroup where
  groupTitle : String
  groupItems : List RenderedItem

/-- ASCII `toLowerCase`. -/
def lowerChars (l : List Char) : List Char := l.map Char.toLower

/-- Data-side section test: `s.text.toLowerCase().includes('recent')`. -/
def dataTitleHasRecent (s : SidebarItem) : Bool :=
  containsSub "recent".data (lowerChars s.text.data)

/-- DOM-side group test: `titleEl.textContent.trim().toLowerCase().includes('recent')`. -/
def domTitleHasRecent (g : RenderedGroup) : Bool :=
  containsSub "recent".data (lowerChars (trimChars g.groupTitle.data))

/-- Patch of one rendered item from one new sidebar item: the text is set to
the new text (when it differs — same resulting state), and the href is set to
`item.link` unless it is absent or the current href already ends with the link
or with the link plus `.html`. -/
def patchItem (it : RenderedItem) (n : SidebarItem) : RenderedItem :=
  { itemText := n.text
    itemHref :=
      match n.link with
      | some l =>
        if sfxB l.data it.itemHref.data || sfxB (l ++ ".html").data it.itemHref.data
        then it.itemHref else l
      | none => it.itemHref }

/-- `recentSection.items.forEach((item, index) => { const linkEl =
linkItems[index]; if (linkEl) ... })`: rendered items are patched positionally;
rendered items beyond the new list are untouched, new items beyond the
rendered list are dropped. -/
def patchItems : List RenderedItem → List SidebarItem → List RenderedItem
  | [], _ => []
  | ds, [] => ds
  | d :: ds, n :: ns => patchItem d n :: patchItems ds ns

def patchGroup (g : RenderedGroup) (ns : List SidebarItem) : RenderedGroup :=
  { g with groupItems := patchItems g.groupItems ns }

/-- The `for (const group of sidebarGroups) { ... break }` loop: the first
group whose title contains `recent` (case-insensitively) is patched and the
loop stops; every other group is untouched. -/
def patchGroupsFirst (ns : List SidebarItem) : List RenderedGroup → List RenderedGroup
  | [] => []
  | g :: gs =>
    if domTitleHasRecent g then patchGroup g ns :: gs
    else g :: patchGroupsFirst ns gs

/-- `patchVitePressSidebar(sidebar)` acting on the rendered sidebar groups. If
the new data has no section whose text contains `recent` (or that section has
no `items`), the function returns before touching the DOM. -/
def patchVitePressSidebar (sidebar : List SidebarItem) (dom : List RenderedGroup) :
    List RenderedGroup :=
  match sidebar.find? dataTitleHasRecent with
  | none => dom
  | some s =>
    match s.items with
    | none => dom
    | some ns => patchGroupsFirst ns dom

/-! ## The JSON snapshot transport

`transformIndexHtml` embeds `JSON.stringify(posts)` in a tagged
`<script type="application/json">` block; the client locates the block and runs
`JSON.parse` on its text. The transport is modelled by an executable JSON
value type, a printer (the `JSON.stringify` output format for the values the
plugin serializes) and a fuel-driven recursive-descent parser (`JSON.parse` on
that grammar). -/

inductive Json where
  | null
  | bool (b : Bool)
  | num (n : Nat)
  | str (s : List Char)
  | arr (xs : List Json)
  | obj (fields : List (List Char × Json))

/-- `JSON.stringify` string escaping for the characters that must or may not
appear raw: quote, backslash, and the common control characters. -/
def escChar (c : Char) : List Char :=
  if c = '"' then ['\\', '"']
  else if c = '\\' then ['\\', '\\']
  else if c = '\n' then ['\\', 'n']
  else if c = '\t' then ['\\', 't']
  else if c = '\r' then ['\\', 'r']
  else [c]

def escChars (s : List Char) : List Char :=
  s.foldr (fun c acc => escChar c ++ acc) []

/-- The decimal digit characters. -/
def digitCharOf (d : Nat) : Char :=
  if d = 0 then '0' else if d = 1 then '1' else if d = 2 then '2'
  else if d = 3 then '3' else if d = 4 then '4' else if d = 5 then '5'
  else if d = 6 then '6' else if d = 7 then '7' else if d = 8 then '8' else '9'

/-- Decimal printing of a `Nat` (the `JSON.stringify` form of the only numeric
field, `readingTime`). -/
def natCharsAux : Nat → Nat → List Char
  | 0, _ => []
  | fuel + 1, n =>
    if n < 10 then [digitCharOf n]
    else natCharsAux fuel (n / 10) ++ [digitCharOf (n % 10)]

def natChars (n : Nat) : List Char := natCharsAux (n + 1) n

/-- Decimal value of a digit sequence, most significant first. -/
def digitsVal (ds : List Char) : Nat :=
  ds.foldl (fun acc c => 10 * acc + (c.toNat - 48)) 0

mutual
def printJson : Json → List Char
  | .null => 'n' :: 'u' :: 'l' :: 'l' :: []
  | .bool true => 't' :: 'r' :: 'u' :: 'e' :: []
  | .bool false => 'f' :: 'a' :: 'l' :: 's' :: 'e' :: []
  | .num n => natChars n
  | .str s => '"' :: escChars s ++ ['"']
  | .arr xs => '[' :: printElems xs ++ [']']
  | .obj fs => '\x7b' :: printFields fs ++ ['\x7d']
def printElems : List Json → List Char
  | [] => []
  | [x] => printJson x
  | x :: y :: xs => printJson x ++ ',' :: printElems (y :: xs)
def printFields : List (List Char × Json) → List Char
  | [] => []
  | [(k, v)] => '"' :: escChars k ++ '"' :: ':' :: printJson v
  | (k, v) :: f :: fs =>
    ('"' :: escChars k ++ '"' :: ':' :: printJson v) ++ ',' :: printFields (f :: fs)
end

/-! `jneed` is a fuel lower bound under which the parser below fully consumes
a printed value. -/
mutual
def jneed : Json → Nat
  | .null | .bool _ | .num _ | .str _ => 1
  | .arr xs => 1 + jneedElems xs
  | .obj fs => 1 + jneedFields fs
def jneedElems : List Json → Nat
  | [] => 0
  | x :: xs => 1 + jneed x + jneedElems xs
def jneedFields : List (List Char × Json) → Nat
  | [] => 0
  | (_, v) :: fs => 1 + jneed v + jneedFields fs
end

def unescChar (e : Char) : Option Char :=
  if e = '"' then some '"'
  else if e = '\\' then some '\\'
  else if e = 'n' then some '\n'
  else if e = 't' then some '\t'
  else if e = 'r' then some '\r'
  else none

/-! The string-body parser consumes up to and including the closing quote;
`parseStrEsc` handles the character after a backslash. -/
mutual
def parseStrA : List Char → Option (List Char × List Char)
  | [] => none
  | c :: r =>
    if c = '"' then some ([], r)
    else if c = '\\' then parseStrEsc r
    else (parseStrA r).map (fun p => (c :: p.1, p.2))
  termination_by l => l.length
def parseStrEsc : List Char → Option (List Char × List Char)
  | [] => none
  | e :: r' =>
    match unescChar e with
    | some u => (parseStrA r').map (fun p => (u :: p.1, p.2))
    | none => none
  termination_by l => l.length
end

def headDigit : List Char → Bool
  | [] => false
  | c :: _ => c.isDigit

def headIs (c : Char) : List Char → Bool
  | [] => false
  | x :: _ => x = c

mutual
def parseVal : Nat → List Char → Option (Json × List Char)
  | 0, _ => none
  | _ + 1, [] => none
  | n + 1, c :: r =>
    if c = 'n' then
      if pfxB "ull".data r then some (.null, r.drop 3) else none
    else if c = 't' then
      if pfxB "rue".data r then some (.bool true, r.drop 3) else none
    else if c = 'f' then
      if pfxB "alse".data r then some (.bool false, r.drop 4) else none
    else if c = '"' then
      (parseStrA r).map (fun p => (.str p.1, p.2))
    else if c = '[' then
      if headIs ']' r then some (.arr [], r.tail)
      else (parseElems n r).map (fun p => (.arr p.1, p.2))
    else if c = '\x7b' then
      if headIs '\x7d' r then some (.obj [], r.tail)
      else (parseFields n r).map (fun p => (.obj p.1, p.2))
    else if c.isDigit then
      some (.num (digitsVal ((c :: r).takeWhile Char.isDigit)),
        (c :: r).dropWhile Char.isDigit)
    else none
def parseElems : Nat → List Char → Option (List Json × List Char)
  | 0, _ => none
  | n + 1, l =>
    match parseVal n l with
    | some (x, r) =>
      if headIs ',' r then (parseElems n r.tail).map (fun p => (x :: p.1, p.2))
      else if headIs ']' r then some ([x], r.tail)
      else none
    | none => none
def parseFields : Nat → List Char → Option (List (List Char × Json) × List Char)
  | 0, _ => none
  | n + 1, l =>
    if headIs '"' l then
      match parseStrA l.tail with
      | some (k, r1) =>
        if headIs ':' r1 then
          match parseVal n r1.tail with
          | some (v, r2) =>
            if headIs ',' r2 then
              (parseFields n r2.tail).map (fun p => ((k, v) :: p.1, p.2))
            else if headIs '\x7d' r2 then some ([(k, v)], r2.tail)
            else none
          | none => none
        else none
      | none => none
    else none
end

/-- `JSON.parse` on the modelled grammar: parse with ample fuel and require
that the whole input is consumed. -/
def parseJsonString (s : String) : Option Json :=
  match parseVal (s.data.length + 1) s.data with
  | some (v, []) => some v
  | _ => none

/-! ### Serialization of the scanned collection (`JSON.stringify(posts)`) -/

def encodeEntry (e : BlogPostEntry) : Json :=
  .obj [("title".data, .str e.title.data),
        ("description".data, .str e.description.data),
        ("date".data, .str e.date.data),
        ("tags".data, .arr (e.tags.map (fun t => .str t.data))),
        ("author".data, .str e.author.data),
        ("url".data, .str e.url.data),
        ("slug".data, .str e.slug.data),
        ("readingTime".data, .num e.readingTime),
        ("cover".data, match e.cover with | some c => .str c.data | none => .null),
        ("source".data, .str e.source.data),
        ("published".data, .bool e.published)]

def encodePosts (ps : List BlogPostEntry) : Json := .arr (ps.map encodeEntry)

/-- The embedded snapshot: the text content of the injected
`vitepress-blog-posts` script block. -/
def embedSnapshot (ps : List BlogPostEntry) : String :=
  String.mk (printJson (encodePosts ps))

/-! ### Client-side reading of the parsed snapshot, field for field -/

def findField : List (List Char × Json) → List Char → Option Json
  | [], _ => none
  | (k, v) :: fs, key => if k = key then some v else findField fs key

def getStr (fs : List (List Char × Json)) (k : List Char) : Option String :=
  match findField fs k with
  | some (.str s) => some (String.mk s)
  | _ => none

def decodeStrList : List Json → Option (List String)
  | [] => some []
  | .str s :: xs => (decodeStrList xs).map (fun r => String.mk s :: r)
  | _ => none

def decodeEntry (j : Json) : Option BlogPostEntry :=
  match j with
  | .obj fs => do
    let title ← getStr fs "title".data
    let description ← getStr fs "description".data
    let date ← getStr fs "date".data
    let tags ← match findField fs "tags".data with
      | some (.arr xs) => decodeStrList xs
      | _ => none
    let author ← getStr fs "author".data
    let url ← getStr fs "url".data
    let slug ← getStr fs "slug".data
    let readingTime ← match findField fs "readingTime".data with
      | some (.num n) => some n
      | _ => none
    let cover ← match findField fs "cover".data with
      | some (.str s) => some (some (String.mk s))
      | some .null => some none
      | _ => none
    let source ← getStr fs "source".data
    let published ← match findField fs "published".data with
      | some (.bool b) => some b
      | _ => none
    pure { title := title, description := description, date := date, tags := tags,
           author := author, url := url, slug := slug, readingTime := readingTime,
           cover := cover, source := source, published := published }
  | _ => none

def decodeEntries : List Json → Option (List BlogPostEntry)
  | [] => some []
  | x :: xs =>
    match decodeEntry x, decodeEntries xs with
    | some e, some es => some (e :: es)
    | _, _ => none

/-- The collection the client holds after locating the snapshot block and
parsing it, read back field for field. -/
def decodeSnapshot (s : String) : Option (List BlogPostEntry) :=
  match parseJsonString s with
  | some (.arr xs) => decodeEntries xs
  | _ => none

/-! ## Concrete inputs for witnesses and counterexamples, and the
specification-side predicates that the claims assert -/

def emptyFm : Frontmatter :=
  { title := none, description := none, date := none, tags := none,
    author := none, slug := none, cover := none, published := none }

def defaultSidebarOptions : BlogSidebarOptions :=
  { basePath := none, recentPostsCount := none, allPostsLabel := none,
    recentPostsLabel := none, recentPostsCollapsed := none }

/-- A post with no `date` field. -/
def fileNoDate : SourceFile :=
  { relPath := "blog/posts/a.md", parseOk := true, fm := emptyFm, body := "hello world" }

/-- A post dated before the Unix epoch. -/
def filePreEpoch : SourceFile :=
  { relPath := "blog/posts/b.md", parseOk := true,
    fm := { emptyFm with date := some "1969-12-31" }, body := "hello" }

def fileJan : SourceFile :=
  { relPath := "blog/posts/jan.md", parseOk := true,
    fm := { emptyFm with date := some "2024-01-01" }, body := "one two" }

def fileFeb : SourceFile :=
  { relPath := "blog/posts/feb.md", parseOk := true,
    fm := { emptyFm with date := some "2024-02-01" }, body := "three" }

def fileUnpub : SourceFile :=
  { relPath := "blog/posts/u.md", parseOk := true,
    fm := { emptyFm with date := some "2024-01-01", published := some false }, body := "x" }

/-- `a/index.md` and the oddly-named but legal file `a/.md` receive the same URL. -/
def fileIndexMd : SourceFile :=
  { relPath := "blog/posts/a/index.md", parseOk := true, fm := emptyFm, body := "x" }

def fileBareMd : SourceFile :=
  { relPath := "blog/posts/a/.md", parseOk := true, fm := emptyFm, body := "y" }

/-- A body of exactly 440 whitespace-delimited words. -/
def body440 : String := String.mk ((List.replicate 440 ['w', ' ']).flatten)

def file440 : SourceFile :=
  { relPath := "blog/posts/long.md", parseOk := true,
    fm := { emptyFm with date := some "2024-01-15", tags := some ["a", "b"] },
    body := body440 }

/-- Does the entry have a non-empty, parsable date? (The claims call the
complement "absent or unparsable".) -/
def validDateB (e : BlogPostEntry) : Bool :=
  (e.date ≠ "") && (parseISODate e.date).isSome

/-- Claim C1 as stated: the scan output is sorted by date descending with
every absent/unparsable-dated entry ordered after all validly-dated entries
(as if dated at the epoch), and the relative order of the absent/unparsable
ones matches their input order. -/
def specC1SortProperty (files : List SourceFile) (wpm : Nat) : Prop :=
  (scanBlogPosts files wpm).Pairwise (fun a b =>
    (validDateB a = true → validDateB b = true →
      (parseISODate b.date).getD 0 ≤ (parseISODate a.date).getD 0)
    ∧ ¬(validDateB a = false ∧ validDateB b = true))
  ∧ (scanBlogPosts files wpm).filter (fun e => !validDateB e)
      = (preScanList files wpm).filter (fun e => !validDateB e)

/-- Claim C6 as stated: within one scan, distinct entries have distinct URLs. -/
def specC6UrlUnique (files : List SourceFile) (wpm : Nat) : Prop :=
  (scanBlogPosts files wpm).Pairwise (fun a b => a ≠ b → a.url ≠ b.url)

/-- Is `file` inside `docsDir/postsDir` (after separator normalization)? -/
def underPostsDir (file docsDir postsDir : String) : Bool :=
  pfxB ((normSlashes docsDir).data ++ '/' :: (normSlashes postsDir).data ++ ['/'])
    (normSlashes file).data

/-- Claim C3 as stated, at one input: a change to a file outside the posts
subdirectory, or inside it without the `.md` extension, emits no event. -/
def specC3NoBroadcast (files : List SourceFile) (file docsDir postsDir : String)
    (wpm : Nat) (o : BlogSidebarOptions) : Prop :=
  (underPostsDir file docsDir postsDir = false ∨ sfxB ".md".data file.data = false) →
  handleHotUpdate files file postsDir wpm o = []

/-- The new "recent" items that the DOM patch would apply: the `items` of the
first data section whose text contains `recent`, or `[]` when there is none. -/
def recentItemsOf (sb : List SidebarItem) : List SidebarItem :=
  (((sb.find? dataTitleHasRecent).bind SidebarItem.items).getD [])

def post1 : BlogPostEntry :=
  { title := "One", description := "", date := "2024-02-01", tags := [], author := "A",
    url := "/blog/posts/one", slug := "one", readingTime := 1, cover := none,
    source := "blog/posts/one.md", published := true }

def post2 : BlogPostEntry :=
  { title := "Two", description := "", date := "2024-01-01", tags := [], author := "B",
    url := "/blog/posts/two", slug := "two", readingTime := 1, cover := none,
    source := "blog/posts/two.md", published := true }

/-- A small rendered sidebar: one non-matching group and one
"Recent posts" group with two rendered line items. -/
def domSample : List RenderedGroup :=
  [ { groupTitle := "Blog", groupItems := [{ itemText := "All posts", itemHref := "/blog/" }] },
    { groupTitle := "Recent posts",
      groupItems := [{ itemText := "Old one", itemHref := "/blog/posts/old-one" },
                     { itemText := "Old two", itemHref := "/blog/posts/old-two" }] } ]

/-- A raw loader post with no frontmatter description and a caller-supplied
excerpt containing an HTML tag and doubled whitespace. -/
def rawPostSample : RawPost :=
  { url := "/blog/posts/one", frontmatter := emptyFm,
    excerpt := some "Hello <b>world</b>  now", src := some "w w w" }

/-! ## Lemmas: prefix / suffix / substring semantics -/

theorem pfxB_iff (p l : List Char) : pfxB p l = true ↔ ∃ t, l = p ++ t := by
  induction p generalizing l with
  | nil => simp [pfxB]
  | cons a as ih =>
    cases l with
    | nil => simp [pfxB]
    | cons b bs =>
      simp only [pfxB, Bool.and_eq_true, decide_eq_true_eq, ih, List.cons_append,
        List.cons.injEq]
      constructor
      · rintro ⟨rfl, t, rfl⟩; exact ⟨t, rfl, rfl⟩
      · rintro ⟨t, rfl, rfl⟩; exact ⟨rfl, t, rfl⟩

theorem pfxB_append_self (p t : List Char) : pfxB p (p ++ t) = true :=
  (pfxB_iff p _).mpr ⟨t, rfl⟩

theorem sfxB_iff (p l : List Char) : sfxB p l = true ↔ ∃ s, l = s ++ p := by
  unfold sfxB
  rw [pfxB_iff]
  constructor
  · rintro ⟨t, ht⟩
    refine ⟨t.reverse, ?_⟩
    have := congrArg List.reverse ht
    simpa using this
  · rintro ⟨s, rfl⟩
    exact ⟨s.reverse, by simp⟩

theorem containsSub_iff (p l : List Char) :
    containsSub p l = true ↔ ∃ s t, l = s ++ p ++ t := by
  induction l with
  | nil =>
    simp only [containsSub, List.isEmpty_iff]
    constructor
    · rintro rfl; exact ⟨[], [], rfl⟩
    · rintro ⟨s, t, h⟩
      rcases List.append_eq_nil.mp (List.append_eq_nil.mp h.symm).1 with ⟨_, h2⟩
      exact h2
  | cons c r ih =>
    simp only [containsSub, Bool.or_eq_true, pfxB_iff, ih]
    constructor
    · rintro (⟨t, ht⟩ | ⟨s, t, hst⟩)
      · exact ⟨[], t, by simp [ht]⟩
      · exact ⟨c :: s, t, by simp [hst]⟩
    · rintro ⟨s, t, hst⟩
      cases s with
      | nil => exact Or.inl ⟨t, by simpa using hst⟩
      | cons s0 srest =>
        simp only [List.cons_append, List.cons.injEq] at hst
        exact Or.inr ⟨srest, t, hst.2⟩

theorem take_of_append_eq {l s p : List Char} (h : l = s ++ p) :
    l.take (l.length - p.length) = s := by
  subst h
  simp [List.take_left]

/-! ## Lemmas: the stable sort -/

theorem insertB_perm (le : α → α → Bool) (a : α) (l : List α) :
    (insertB le a l).Perm (a :: l) := by
  induction l with
  | nil => simp [insertB]
  | cons b bs ih =>
    simp only [insertB]
    by_cases h : le a b
    · simp [h]
    · simp only [h, Bool.false_eq_true, if_false]
      exact (ih.cons b).trans (List.Perm.swap a b bs)

theorem sortB_perm (le : α → α → Bool) (l : List α) : (sortB le l).Perm l := by
  induction l with
  | nil => simp [sortB]
  | cons a as ih =>
    exact (insertB_perm le a (sortB le as)).trans (ih.cons a)

theorem mem_sortB {le : α → α → Bool} {l : List α} {x : α} :
    x ∈ sortB le l ↔ x ∈ l :=
  (sortB_perm le l).mem_iff

theorem insertB_congr {le₁ le₂ : α → α → Bool} (a : α) (l : List α)
    (h : ∀ x ∈ l, le₁ a x = le₂ a x) : insertB le₁ a l = insertB le₂ a l := by
  induction l with
  | nil => rfl
  | cons b bs ih =>
    simp only [insertB, h b (by simp)]
    by_cases hb : le₂ a b
    · simp [hb]
    · simp only [hb, Bool.false_eq_true, if_false, List.cons.injEq, true_and]
      exact ih (fun x hx => h x (by simp [hx]))

theorem sortB_congr {le₁ le₂ : α → α → Bool} (l : List α)
    (h : ∀ x ∈ l, ∀ y ∈ l, le₁ x y = le₂ x y) : sortB le₁ l = sortB le₂ l := by
  induction l with
  | nil => rfl
  | cons a as ih =>
    simp only [sortB]
    rw [ih (fun x hx y hy => h x (by simp [hx]) y (by simp [hy]))]
    exact insertB_congr a _ (fun x hx =>
      h a (by simp) x (by simp [mem_sortB.mp hx]))

theorem pairwise_insertB {le : α → α → Bool}
    (htot : ∀ a b, le a b = true ∨ le b a = true)
    (htr : ∀ a b c, le a b = true → le b c = true → le a c = true)
    (a : α) {l : List α} (hl : l.Pairwise (fun x y => le x y = true)) :
    (insertB le a l).Pairwise (fun x y => le x y = true) := by
  induction l with
  | nil => simp [insertB]
  | cons b bs ih =>
    rcases List.pairwise_cons.mp hl with ⟨hb, hbs⟩
    simp only [insertB]
    by_cases h : le a b = true
    · rw [if_pos h]
      refine List.pairwise_cons.mpr ⟨?_, hl⟩
      intro x hx
      rcases List.mem_cons.mp hx with rfl | hx
      · exact h
      · exact htr a b x h (hb x hx)
    · rw [if_neg h]
      refine List.pairwise_cons.mpr ⟨?_, ih hbs⟩
      intro x hx
      have hx' := (insertB_perm le a bs).mem_iff.mp hx
      rcases List.mem_cons.mp hx' with heq | hx'
      · rw [heq]
        rcases htot a b with ha | ha
        · exact absurd ha h
        · exact ha
      · exact hb x hx'

theorem pairwise_sortB {le : α → α → Bool}
    (htot : ∀ a b, le a b = true ∨ le b a = true)
    (htr : ∀ a b c, le a b = true → le b c = true → le a c = true)
    (l : List α) : (sortB le l).Pairwise (fun x y => le x y = true) := by
  induction l with
  | nil => simp [sortB]
  | cons a as ih => exact pairwise_insertB htot htr a ih

theorem filter_insertB_key (key : α → Int) (k : Int) (a : α) (l : List α) :
    (insertB (fun x y => decide (key y ≤ key x)) a l).filter
        (fun e => decide (key e = k))
    = if key a = k
      then a :: l.filter (fun e => decide (key e = k))
      else l.filter (fun e => decide (key e = k)) := by
  induction l with
  | nil => by_cases h : key a = k <;> simp [insertB, h]
  | cons b bs ih =>
    simp only [insertB]
    by_cases hab : key b ≤ key a
    · rw [if_pos (by simpa using hab)]
      by_cases h : key a = k <;> simp [List.filter_cons, h]
    · rw [if_neg (by simpa using hab)]
      have hlt : key a < key b := lt_of_not_le hab
      by_cases h : key a = k
      · have hbk : ¬ key b = k := by omega
        simp [List.filter_cons, h, hbk, ih]
      · by_cases hbk : key b = k <;> simp [List.filter_cons, h, hbk, ih]

theorem filter_sortB_key (key : α → Int) (k : Int) (l : List α) :
    (sortB (fun x y => decide (key y ≤ key x)) l).filter (fun e => decide (key e = k))
    = l.filter (fun e => decide (key e = k)) := by
  induction l with
  | nil => rfl
  | cons a as ih =>
    simp only [sortB]
    rw [filter_insertB_key, ih]
    by_cases h : key a = k <;> simp [h, List.filter_cons]

/-! ## Lemmas: whitespace collapsing and trimming -/

theorem dropWhile_head_not (p : α → Bool) :
    ∀ (l : List α) (c : α), (l.dropWhile p).head? = some c → p c = false := by
  intro l
  induction l with
  | nil => intro c h; simp [List.dropWhile] at h
  | cons a r ih =>
    intro c h
    by_cases hp : p a
    · rw [List.dropWhile_cons, if_pos hp] at h
      exact ih c h
    · rw [List.dropWhile_cons, if_neg hp] at h
      simp only [List.head?_cons, Option.some.injEq] at h
      rw [← h]
      exact Bool.eq_false_iff.mpr hp

theorem dropWhile_suffix_self (p : α → Bool) (l : List α) : l.dropWhile p <:+ l := by
  induction l with
  | nil => exact List.suffix_rfl
  | cons a r ih =>
    by_cases hp : p a
    · rw [List.dropWhile_cons, if_pos hp]
      exact ih.trans (List.suffix_cons a r)
    · rw [List.dropWhile_cons, if_neg hp]

/-- `trimChars l` sits contiguously inside `l`. -/
theorem trimChars_decomp (l : List Char) :
    ∃ a b, l = a ++ trimChars l ++ b := by
  rcases dropWhile_suffix_self isWsChar l with ⟨a, ha⟩
  rcases dropWhile_suffix_self isWsChar (l.dropWhile isWsChar).reverse with ⟨t, ht⟩
  refine ⟨a, t.reverse, ?_⟩
  have hA : l.dropWhile isWsChar = trimChars l ++ t.reverse := by
    unfold trimChars
    have h2 := congrArg List.reverse ht
    simp only [List.reverse_append, List.reverse_reverse] at h2
    exact h2.symm
  calc l = a ++ l.dropWhile isWsChar := ha.symm
    _ = a ++ (trimChars l ++ t.reverse) := by rw [hA]
    _ = a ++ trimChars l ++ t.reverse := (List.append_assoc _ _ _).symm

theorem collapse_head_true :
    ∀ (r : List Char) (c : Char), (collapseWsAux true r).head? = some c → isWsChar c = false := by
  intro r
  induction r with
  | nil => intro c h; simp [collapseWsAux] at h
  | cons a r' ih =>
    intro c h
    by_cases hw : isWsChar a
    · rw [collapseWsAux, if_pos hw, if_pos rfl] at h
      exact ih c h
    · rw [collapseWsAux, if_neg hw] at h
      simp only [List.head?_cons, Option.some.injEq] at h
      rw [← h]
      exact Bool.eq_false_iff.mpr hw

/-- No two adjacent characters of the collapsed output are both whitespace. -/
theorem chain'_collapseWsAux :
    ∀ (r : List Char) (f : Bool),
      List.Chain' (fun a b => ¬(isWsChar a = true ∧ isWsChar b = true)) (collapseWsAux f r) := by
  intro r
  induction r with
  | nil => intro f; simp [collapseWsAux]
  | cons a r' ih =>
    intro f
    by_cases hw : isWsChar a
    · cases f with
      | true =>
        rw [collapseWsAux, if_pos hw, if_pos rfl]
        exact ih true
      | false =>
        rw [collapseWsAux, if_pos hw, if_neg (by simp)]
        refine (ih true).cons' ?_
        intro y hy
        have := collapse_head_true r' y hy
        simp [this]
    · rw [collapseWsAux, if_neg hw]
      refine (ih false).cons' ?_
      intro y _
      have : isWsChar a = false := Bool.eq_false_iff.mpr hw
      simp [this]

/-- Every whitespace character in the collapsed output is a plain space. -/
theorem ws_mem_collapseWsAux :
    ∀ (r : List Char) (f : Bool) (c : Char),
      c ∈ collapseWsAux f r → isWsChar c = true → c = ' ' := by
  intro r
  induction r with
  | nil => intro f c h; simp [collapseWsAux] at h
  | cons a r' ih =>
    intro f c h hc
    by_cases hw : isWsChar a
    · cases f with
      | true =>
        rw [collapseWsAux, if_pos hw, if_pos rfl] at h
        exact ih true c h hc
      | false =>
        rw [collapseWsAux, if_pos hw, if_neg (by simp)] at h
        rcases List.mem_cons.mp h with heq | h'
        · exact heq
        · exact ih true c h' hc
    · rw [collapseWsAux, if_neg hw] at h
      rcases List.mem_cons.mp h with heq | h'
      · rw [heq] at hc
        exact absurd hc (Bool.eq_false_iff.mp (Bool.eq_false_iff.mpr hw)).elim
      · exact ih false c h' hc

/-- Characters of the collapsed output come from the input or are spaces. -/
theorem mem_collapseWsAux :
    ∀ (r : List Char) (f : Bool) (c : Char),
      c ∈ collapseWsAux f r → c ∈ r ∨ c = ' ' := by
  intro r
  induction r with
  | nil => intro f c h; simp [collapseWsAux] at h
  | cons a r' ih =>
    intro f c h
    by_cases hw : isWsChar a
    · cases f with
      | true =>
        rw [collapseWsAux, if_pos hw, if_pos rfl] at h
        rcases ih true c h with h' | h'
        · exact Or.inl (List.mem_cons_of_mem a h')
        · exact Or.inr h'
      | false =>
        rw [collapseWsAux, if_pos hw, if_neg (by simp)] at h
        rcases List.mem_cons.mp h with heq | h'
        · exact Or.inr heq
        · rcases ih true c h' with h'' | h''
          · exact Or.inl (List.mem_cons_of_mem a h'')
          · exact Or.inr h''
    · rw [collapseWsAux, if_neg hw] at h
      rcases List.mem_cons.mp h with heq | h'
      · exact Or.inl (heq ▸ List.mem_cons_self a r')
      · rcases ih false c h' with h'' | h''
        · exact Or.inl (List.mem_cons_of_mem a h'')
        · exact Or.inr h''

/-! ## Lemmas: HTML-like tag stripping -/

theorem splitAtGt_some :
    ∀ {l m b : List Char}, splitAtGt l = some (m, b) → l = m ++ '>' :: b ∧ '>' ∉ m := by
  intro l
  induction l with
  | nil => intro m b h; simp [splitAtGt] at h
  | cons c r ih =>
    intro m b h
    by_cases hc : c = '>'
    · rw [splitAtGt, if_pos hc] at h
      simp only [Option.some.injEq, Prod.mk.injEq] at h
      rw [← h.1, ← h.2, hc]
      exact ⟨rfl, List.not_mem_nil '>'⟩
    · rw [splitAtGt, if_neg hc] at h
      cases hsp : splitAtGt r with
      | none => rw [hsp] at h; simp at h
      | some p =>
        rw [hsp] at h
        simp only [Option.map_some', Option.some.injEq, Prod.mk.injEq] at h
        rcases ih (m := p.1) (b := p.2) (by rw [hsp]) with ⟨hr, hnm⟩
        rw [← h.1, ← h.2]
        constructor
        · simp [hr]
        · intro hmem
          rcases List.mem_cons.mp hmem with heq | hmem'
          · exact hc heq.symm
          · exact hnm hmem'

theorem splitAtGt_none : ∀ {l : List Char}, splitAtGt l = none ↔ '>' ∉ l := by
  intro l
  induction l with
  | nil => simp [splitAtGt]
  | cons c r ih =>
    by_cases hc : c = '>'
    · rw [splitAtGt, if_pos hc]
      simp [hc]
    · rw [splitAtGt, if_neg hc]
      cases hsp : splitAtGt r with
      | none =>
        simp only [Option.map_none', true_iff]
        intro hmem
        rcases List.mem_cons.mp hmem with heq | hmem'
        · exact hc heq.symm
        · exact (ih.mp hsp) hmem'
      | some p =>
        simp only [Option.map_some']
        constructor
        · intro hcontra; cases hcontra
        · intro hnotmem
          have hmem : '>' ∈ r := by
            by_contra hn
            rw [ih.mpr hn] at hsp
            cases hsp
          exact absurd (List.mem_cons_of_mem c hmem) hnotmem

theorem splitAtGt_append_of_not_mem :
    ∀ {r : List Char}, '>' ∉ r → ∀ (b : List Char),
      splitAtGt (r ++ b) = (splitAtGt b).map (fun p => (r ++ p.1, p.2)) := by
  intro r
  induction r with
  | nil =>
    intro _ b
    simp only [List.nil_append]
    cases splitAtGt b with
    | none => simp
    | some p => simp
  | cons c r' ih =>
    intro hmem b
    have hc : c ≠ '>' := fun h => hmem (h ▸ List.mem_cons_self c r')
    have hr' : '>' ∉ r' := fun h => hmem (List.mem_cons_of_mem c h)
    rw [List.cons_append, splitAtGt, if_neg hc, ih hr' b]
    cases splitAtGt b with
    | none => simp
    | some p => simp

theorem splitAtGt_decomp {m t : List Char} (hm : '>' ∉ m) :
    splitAtGt (m ++ '>' :: t) = some (m, t) := by
  rw [splitAtGt_append_of_not_mem hm ('>' :: t), splitAtGt, if_pos rfl]
  simp

theorem hasTag_nil : hasTag [] = false := rfl

theorem hasTag_cons (c : Char) (r : List Char) :
    hasTag (c :: r) = ((decide (c = '<') && tagHere r) || hasTag r) := rfl

theorem hasTag_cons_false {x : Char} {r : List Char} (h : hasTag (x :: r) = false) :
    hasTag r = false := by
  rw [hasTag_cons] at h
  exact (Bool.or_eq_false_iff.mp h).2

theorem hasTag_append_right {a b : List Char} (h : hasTag (a ++ b) = false) :
    hasTag b = false := by
  induction a with
  | nil => exact h
  | cons x a' ih => exact ih (hasTag_cons_false h)

theorem tagHere_of_append {a b : List Char} (h : tagHere a = true) :
    tagHere (a ++ b) = true := by
  unfold tagHere at h ⊢
  cases hsp : splitAtGt a with
  | none => rw [hsp] at h; cases h
  | some p =>
    rw [hsp] at h
    rcases splitAtGt_some hsp with ⟨ha, hnm⟩
    rw [ha, List.append_assoc, List.cons_append, splitAtGt_decomp hnm]
    simpa using h

theorem hasTag_append_left {a b : List Char} (h : hasTag (a ++ b) = false) :
    hasTag a = false := by
  induction a with
  | nil => exact hasTag_nil
  | cons x a' ih =>
    rw [List.cons_append, hasTag_cons] at h
    rcases Bool.or_eq_false_iff.mp h with ⟨h1, h2⟩
    rw [hasTag_cons]
    refine Bool.or_eq_false_iff.mpr ⟨?_, ih h2⟩
    rcases Bool.and_eq_false_iff.mp h1 with h1' | h1'
    · rw [h1']
      simp
    · refine Bool.and_eq_false_iff.mpr (Or.inr ?_)
      by_contra hth
      have := tagHere_of_append (a := a') (b := b) (Bool.not_eq_false _ ▸ eq_true_of_ne_false hth)
      rw [this] at h1'
      cases h1'

/-- `hasTag` fails on every contiguous piece of a tag-free list. -/
theorem hasTag_infix_false {l piece : List Char} (h : hasTag l = false)
    (hdec : ∃ a b, l = a ++ piece ++ b) : hasTag piece = false := by
  rcases hdec with ⟨a, b, rfl⟩
  exact hasTag_append_right (hasTag_append_left h)

theorem mem_stripTagsFuel :
    ∀ (n : Nat) (l : List Char) (c : Char), c ∈ stripTagsFuel n l → c ∈ l ∨ c = ' ' := by
  intro n
  induction n with
  | zero => intro l c h; exact Or.inl h
  | succ n ih =>
    intro l c h
    cases l with
    | nil => simp [stripTagsFuel] at h
    | cons x r =>
      by_cases hx : x = '<'
      · cases hsp : splitAtGt r with
        | none =>
          simp only [stripTagsFuel, if_pos hx, hsp] at h
          rcases List.mem_cons.mp h with heq | h'
          · exact Or.inl (heq ▸ List.mem_cons_self x r)
          · rcases ih r c h' with h'' | h''
            · exact Or.inl (List.mem_cons_of_mem x h'')
            · exact Or.inr h''
        | some p =>
          obtain ⟨m, b⟩ := p
          rcases splitAtGt_some hsp with ⟨hr, hnm⟩
          by_cases hm : m.isEmpty
          · simp only [stripTagsFuel, if_pos hx, hsp, hm, if_true] at h
            rcases List.mem_cons.mp h with heq | h'
            · exact Or.inl (heq ▸ List.mem_cons_self x r)
            · rcases ih r c h' with h'' | h''
              · exact Or.inl (List.mem_cons_of_mem x h'')
              · exact Or.inr h''
          · simp only [stripTagsFuel, if_pos hx, hsp, hm, if_false, Bool.false_eq_true] at h
            rcases List.mem_cons.mp h with heq | h'
            · exact Or.inr heq
            · rcases ih b c h' with h'' | h''
              · refine Or.inl (List.mem_cons_of_mem x ?_)
                rw [hr]
                exact List.mem_append_right m (List.mem_cons_of_mem '>' h'')
              · exact Or.inr h''
      · simp only [stripTagsFuel, if_neg hx] at h
        rcases List.mem_cons.mp h with heq | h'
        · exact Or.inl (heq ▸ List.mem_cons_self x r)
        · rcases ih r c h' with h'' | h''
          · exact Or.inl (List.mem_cons_of_mem x h'')
          · exact Or.inr h''

/-- After tag stripping no match of `/<[^>]+>/` remains. -/
theorem hasTag_stripTagsFuel :
    ∀ (n : Nat), ∀ (l : List Char), l.length ≤ n → hasTag (stripTagsFuel n l) = false := by
  intro n
  induction n using Nat.strong_induction_on with
  | _ n ihs =>
    intro l hlen
    cases n with
    | zero =>
      cases l with
      | nil => rfl
      | cons x r => simp at hlen
    | succ n =>
      cases l with
      | nil => rfl
      | cons x r =>
        have hrlen : r.length ≤ n := by simpa using hlen
        by_cases hx : x = '<'
        · cases hsp : splitAtGt r with
          | none =>
            have hngt : '>' ∉ r := splitAtGt_none.mp hsp
            have hX : '>' ∉ stripTagsFuel n r := by
              intro hmem
              rcases mem_stripTagsFuel n r '>' hmem with h' | h'
              · exact hngt h'
              · cases h'
            simp only [stripTagsFuel, if_pos hx, hsp, hasTag_cons]
            have hth : tagHere (stripTagsFuel n r) = false := by
              unfold tagHere
              rw [splitAtGt_none.mpr hX]
            rw [hth, ihs n (Nat.lt_succ_self n) r hrlen]
            simp
          | some p =>
            obtain ⟨m, b⟩ := p
            rcases splitAtGt_some hsp with ⟨hr, hnm⟩
            by_cases hm : m.isEmpty
            · have hp1 : m = [] := List.isEmpty_iff.mp hm
              have hrform : r = '>' :: b := by rw [hr, hp1]; rfl
              cases n with
              | zero =>
                rw [hrform] at hrlen
                simp at hrlen
              | succ n' =>
                have hXform : stripTagsFuel (n' + 1) r = '>' :: stripTagsFuel n' b := by
                  rw [hrform]
                  simp only [stripTagsFuel, if_neg (by decide : ¬ ('>' : Char) = '<')]
                simp only [stripTagsFuel, if_pos hx, hsp, hm, if_true, hasTag_cons, hXform]
                have htag : tagHere ('>' :: stripTagsFuel n' b) = false := by
                  unfold tagHere
                  rw [splitAtGt, if_pos rfl]
                  rfl
                have hp2len : b.length ≤ n' := by
                  rw [hrform] at hrlen
                  simpa using hrlen
                rw [ihs n' (by omega) b hp2len, htag]
                simp
            · simp only [stripTagsFuel, if_pos hx, hsp, hm, if_false, Bool.false_eq_true,
                hasTag_cons]
              have hblen : b.length ≤ n := by
                have := congrArg List.length hr
                simp at this
                omega
              rw [ihs n (Nat.lt_succ_self n) b hblen]
              simp
        · simp only [stripTagsFuel, if_neg hx, hasTag_cons]
          rw [ihs n (Nat.lt_succ_self n) r hrlen]
          have hd : decide (x = '<') = false := by simp [hx]
          rw [hd]
          simp

/-- Whitespace collapsing preserves tag-freeness. -/
theorem hasTag_collapseWsAux :
    ∀ (l : List Char) (f : Bool), hasTag l = false → hasTag (collapseWsAux f l) = false := by
  intro l
  induction l with
  | nil => intro f _; cases f <;> rfl
  | cons c r ih =>
    intro f h
    rw [hasTag_cons] at h
    rcases Bool.or_eq_false_iff.mp h with ⟨h1, h2⟩
    by_cases hw : isWsChar c
    · cases f with
      | true =>
        rw [collapseWsAux, if_pos hw, if_pos rfl]
        exact ih true h2
      | false =>
        rw [collapseWsAux, if_pos hw, if_neg (by simp)]
        rw [hasTag_cons, ih true h2]
        simp
    · rw [collapseWsAux, if_neg hw]
      rw [hasTag_cons, ih false h2]
      by_cases hc : c = '<'
      · have hth : tagHere r = false := by
          rcases Bool.and_eq_false_iff.mp h1 with h1' | h1'
          · rw [hc] at h1'; simp at h1'
          · exact h1'
        have hout : tagHere (collapseWsAux false r) = false := by
          by_contra hcon
          have hcon' : tagHere (collapseWsAux false r) = true :=
            eq_true_of_ne_false hcon
          unfold tagHere at hcon'
          cases hsq : splitAtGt (collapseWsAux false r) with
          | none => rw [hsq] at hcon'; cases hcon'
          | some q =>
            obtain ⟨qm, qb⟩ := q
            rw [hsq] at hcon'
            simp only [Bool.not_eq_true', Bool.not_eq_false] at hcon'
            have hqm : qm ≠ [] := by
              intro hnil
              rw [hnil] at hcon'
              cases hcon'
            rcases splitAtGt_some hsq with ⟨hdec, _⟩
            have hgt_mem : '>' ∈ collapseWsAux false r := by
              rw [hdec]
              exact List.mem_append_right qm (List.mem_cons_self '>' qb)
            have hgt_r : '>' ∈ r := by
              rcases mem_collapseWsAux r false '>' hgt_mem with h' | h'
              · exact h'
              · cases h'
            unfold tagHere at hth
            cases hsp : splitAtGt r with
            | none => exact (splitAtGt_none.mp hsp) hgt_r
            | some p =>
              obtain ⟨pm, pb⟩ := p
              rw [hsp] at hth
              simp only [Bool.not_eq_false'] at hth
              have hpm : pm = [] := List.isEmpty_iff.mp hth
              rcases splitAtGt_some hsp with ⟨hrform, _⟩
              rw [hpm, List.nil_append] at hrform
              have hcoll : collapseWsAux false r = '>' :: collapseWsAux false pb := by
                rw [hrform, collapseWsAux, if_neg (by decide : ¬isWsChar '>' = true)]
              rw [hcoll, splitAtGt, if_pos rfl] at hsq
              simp only [Option.some.injEq, Prod.mk.injEq] at hsq
              exact hqm hsq.1.symm
        rw [hout]
        simp
      · have : decide (c = '<') = false := by simp [hc]
        rw [this]
        simp

theorem dropWhile_getLast?_of_ne_nil (p : α → Bool) :
    ∀ (l : List α), l.dropWhile p ≠ [] → (l.dropWhile p).getLast? = l.getLast? := by
  intro l
  induction l with
  | nil => intro h; simp [List.dropWhile] at h
  | cons a r ih =>
    intro h
    by_cases hp : p a
    · rw [List.dropWhile_cons, if_pos hp] at h ⊢
      cases hr : r with
      | nil => rw [hr] at h; simp [List.dropWhile] at h
      | cons b r' =>
        rw [← hr, ih h, hr]
        simp
    · rw [List.dropWhile_cons, if_neg hp]

theorem trimChars_head_not_ws (l : List Char) :
    ∀ c, (trimChars l).head? = some c → isWsChar c = false := by
  intro c hc
  unfold trimChars at hc
  rw [List.head?_reverse] at hc
  by_cases hB : (l.dropWhile isWsChar).reverse.dropWhile isWsChar = []
  · rw [hB] at hc
    cases hc
  · rw [dropWhile_getLast?_of_ne_nil isWsChar _ hB, List.getLast?_reverse] at hc
    exact dropWhile_head_not isWsChar l c hc

theorem trimChars_getLast_not_ws (l : List Char) :
    ∀ c, (trimChars l).getLast? = some c → isWsChar c = false := by
  intro c hc
  unfold trimChars at hc
  rw [List.getLast?_reverse] at hc
  exact dropWhile_head_not isWsChar _ c hc

/-- The four shape guarantees of every cleaned description: no HTML-like tag
remains, no two adjacent whitespace characters, every whitespace character is
a plain space, and no leading or trailing whitespace. -/
theorem cleanDescription_props (s : String) :
    hasTag (cleanDescription s).data = false
    ∧ List.Chain' (fun a b => ¬(isWsChar a = true ∧ isWsChar b = true)) (cleanDescription s).data
    ∧ (∀ c ∈ (cleanDescription s).data, isWsChar c = true → c = ' ')
    ∧ (∀ c, ((cleanDescription s).data.head? = some c → isWsChar c = false)
        ∧ ((cleanDescription s).data.getLast? = some c → isWsChar c = false)) := by
  have hdata : (cleanDescription s).data = trimChars (collapseWs (stripTags s.data)) := rfl
  have h0 : hasTag (stripTags s.data) = false :=
    hasTag_stripTagsFuel s.data.length s.data le_rfl
  have h1 : hasTag (collapseWs (stripTags s.data)) = false :=
    hasTag_collapseWsAux _ false h0
  rcases trimChars_decomp (collapseWs (stripTags s.data)) with ⟨a, b, hab⟩
  refine ⟨?_, ?_, ?_, ?_⟩
  · rw [hdata]
    exact hasTag_infix_false h1 ⟨a, b, hab⟩
  · rw [hdata]
    have hch : List.Chain' (fun a b => ¬(isWsChar a = true ∧ isWsChar b = true))
        (collapseWs (stripTags s.data)) := chain'_collapseWsAux _ false
    exact List.Chain'.infix hch ⟨a, b, hab.symm⟩
  · rw [hdata]
    intro c hcmem hws
    have hmem : c ∈ collapseWs (stripTags s.data) := by
      rw [hab]
      exact List.mem_append_left _ (List.mem_append_right a hcmem)
    exact ws_mem_collapseWsAux _ false c hmem hws
  · rw [hdata]
    intro c
    exact ⟨trimChars_head_not_ws _ c, trimChars_getLast_not_ws _ c⟩

/-! ## Lemmas: URL derivation -/

theorem slash_data : ("/".data : List Char) = ['/'] := rfl

theorem normSlashes_eq_self {p : String} (h : '\\' ∉ p.data) : normSlashes p = p := by
  unfold normSlashes
  have hmap : p.data.map (fun c => if c = '\\' then '/' else c) = p.data := by
    apply (List.map_congr_left ?_).trans (congrFun List.map_id_fun p.data)
    intro c hc
    have hne : c ≠ '\\' := fun hcc => h (hcc ▸ hc)
    simp [hne]
  rw [hmap]

theorem sfxB_append_self (s p : List Char) : sfxB p (s ++ p) = true :=
  (sfxB_iff p (s ++ p)).mpr ⟨s, rfl⟩

theorem collapseIndex_of_suffix (t : List Char) :
    collapseIndex (t ++ "/index".data) = t ++ ['/'] := by
  unfold collapseIndex
  rw [if_pos (sfxB_append_self _ _)]
  have hlen : ("/index".data).length = 6 := by decide
  rw [← hlen]
  rw [take_of_append_eq rfl]

/-- `collapseIndex` is injective on lists that do not end with a slash. -/
theorem collapseIndex_inj {s1 s2 : List Char}
    (h1 : sfxB "/".data s1 = false) (h2 : sfxB "/".data s2 = false)
    (heq : collapseIndex s1 = collapseIndex s2) : s1 = s2 := by
  by_cases hi1 : sfxB "/index".data s1 = true
  · rcases (sfxB_iff _ _).mp hi1 with ⟨t1, rfl⟩
    rw [collapseIndex_of_suffix] at heq
    by_cases hi2 : sfxB "/index".data s2 = true
    · rcases (sfxB_iff _ _).mp hi2 with ⟨t2, rfl⟩
      rw [collapseIndex_of_suffix] at heq
      rw [List.append_cancel_right heq]
    · unfold collapseIndex at heq
      rw [if_neg hi2] at heq
      exfalso
      have hx : sfxB "/".data s2 = true := by
        rw [← heq]
        exact (sfxB_iff _ _).mpr ⟨t1, by rw [slash_data]⟩
      rw [hx] at h2
      cases h2
  · by_cases hi2 : sfxB "/index".data s2 = true
    · rcases (sfxB_iff _ _).mp hi2 with ⟨t2, rfl⟩
      rw [collapseIndex_of_suffix] at heq
      unfold collapseIndex at heq
      rw [if_neg hi1] at heq
      exfalso
      have hx : sfxB "/".data s1 = true := by
        rw [heq]
        exact (sfxB_iff _ _).mpr ⟨t2, by rw [slash_data]⟩
      rw [hx] at h1
      cases h1
    · unfold collapseIndex at heq
      rw [if_neg hi1, if_neg hi2] at heq
      exact heq

/-- The URL derivation of `scanBlogPosts` maps distinct relative paths to
distinct URLs, provided the paths contain no backslash character and no path's
final segment is the bare filename `.md`. -/
theorem urlOf_inj {p1 p2 : String}
    (h1md : sfxB ".md".data p1.data = true) (h2md : sfxB ".md".data p2.data = true)
    (h1bs : '\\' ∉ p1.data) (h2bs : '\\' ∉ p2.data)
    (h1sl : sfxB "/.md".data p1.data = false) (h2sl : sfxB "/.md".data p2.data = false)
    (heq : urlOf p1 = urlOf p2) : p1 = p2 := by
  unfold urlOf at heq
  rw [normSlashes_eq_self h1bs, normSlashes_eq_self h2bs] at heq
  have heq' : collapseIndex (stripMdExt p1.data) = collapseIndex (stripMdExt p2.data) := by
    have hd := congrArg String.data heq
    simpa using hd
  rcases (sfxB_iff _ _).mp h1md with ⟨s1, hp1⟩
  rcases (sfxB_iff _ _).mp h2md with ⟨s2, hp2⟩
  have hst1 : stripMdExt p1.data = s1 := by
    unfold stripMdExt
    rw [if_pos h1md]
    have hlen : (".md".data).length = 3 := by decide
    rw [← hlen]
    exact take_of_append_eq hp1
  have hst2 : stripMdExt p2.data = s2 := by
    unfold stripMdExt
    rw [if_pos h2md]
    have hlen : (".md".data).length = 3 := by decide
    rw [← hlen]
    exact take_of_append_eq hp2
  have hend1 : sfxB "/".data s1 = false := by
    by_contra hx
    have hx' : sfxB "/".data s1 = true := eq_true_of_ne_false hx
    rcases (sfxB_iff _ _).mp hx' with ⟨u, hu⟩
    have hbad : sfxB "/.md".data p1.data = true := by
      apply (sfxB_iff _ _).mpr
      refine ⟨u, ?_⟩
      rw [hp1, hu, List.append_assoc]
      rfl
    rw [hbad] at h1sl
    cases h1sl
  have hend2 : sfxB "/".data s2 = false := by
    by_contra hx
    have hx' : sfxB "/".data s2 = true := eq_true_of_ne_false hx
    rcases (sfxB_iff _ _).mp hx' with ⟨u, hu⟩
    have hbad : sfxB "/.md".data p2.data = true := by
      apply (sfxB_iff _ _).mpr
      refine ⟨u, ?_⟩
      rw [hp2, hu, List.append_assoc]
      rfl
    rw [hbad] at h2sl
    cases h2sl
  rw [hst1, hst2] at heq'
  have hs12 : s1 = s2 := collapseIndex_inj hend1 hend2 heq'
  have hdata : p1.data = p2.data := by rw [hp1, hp2, hs12]
  cases p1
  cases p2
  exact congrArg String.mk (by simpa using hdata)

/-! ## Lemmas: the scanner -/

theorem extractPost_eq_some {wpm : Nat} {f : SourceFile} {e : BlogPostEntry}
    (h : extractPost wpm f = some e) :
    sfxB ".md".data f.relPath.data = true
    ∧ f.fm.published ≠ some false
    ∧ e.url = urlOf f.relPath
    ∧ e.description = cleanDescription (f.fm.description.getD "")
    ∧ e.date = f.fm.date.getD ""
    ∧ e.readingTime = max 1 (natRound (wordCount f.body) wpm)
    ∧ 1 ≤ e.readingTime := by
  unfold extractPost at h
  split_ifs at h with hA hB hC
  injection h with h'
  subst h'
  exact ⟨hA, hC, rfl, rfl, rfl, rfl, Nat.le_max_left 1 _⟩

theorem mem_scanBlogPosts {files : List SourceFile} {wpm : Nat} {e : BlogPostEntry} :
    e ∈ scanBlogPosts files wpm ↔ ∃ f ∈ files, extractPost wpm f = some e := by
  unfold scanBlogPosts preScanList
  rw [mem_sortB, List.mem_filterMap]

theorem dateCmpLe_eq_keyLe {a b : BlogPostEntry}
    (ha : dateKey a ≠ none) (hb : dateKey b ≠ none) : dateCmpLe a b = keyLe a b := by
  unfold dateCmpLe keyLe sortKey
  cases hka : dateKey a with
  | none => exact absurd hka ha
  | some x =>
    cases hkb : dateKey b with
    | none => exact absurd hkb hb
    | some y => simp

theorem scan_eq_sortB_keyLe {files : List SourceFile} {wpm : Nat}
    (H : ∀ e ∈ preScanList files wpm, dateKey e ≠ none) :
    scanBlogPosts files wpm = sortB keyLe (preScanList files wpm) := by
  unfold scanBlogPosts
  exact sortB_congr _ (fun x hx y hy => dateCmpLe_eq_keyLe (H x hx) (H y hy))

theorem keyLe_total (a b : BlogPostEntry) : keyLe a b = true ∨ keyLe b a = true := by
  unfold keyLe
  rcases Int.le_total (sortKey b) (sortKey a) with h | h
  · exact Or.inl (decide_eq_true h)
  · exact Or.inr (decide_eq_true h)

theorem keyLe_trans (a b c : BlogPostEntry)
    (hab : keyLe a b = true) (hbc : keyLe b c = true) : keyLe a c = true := by
  unfold keyLe at hab hbc ⊢
  exact decide_eq_true (le_trans (of_decide_eq_true hbc) (of_decide_eq_true hab))

/-! ## Claim C1 -/

/-- C1 counterexample: the claim "entries with an absent or unparsable date
are ordered as if dated at the epoch, after all validly-dated entries" fails
on the code. With one entry lacking a date and one validly dated 1969-12-31
(before the epoch), the dateless entry (key `0`) sorts *before* the
validly-dated entry (negative key) under the descending sort, while the claim
demands it come after every validly-dated entry. -/
theorem c1_counterexample : ¬ specC1SortProperty [fileNoDate, filePreEpoch] 220 := by
  unfold specC1SortProperty
  letI : DecidableRel (fun (a b : BlogPostEntry) =>
      (validDateB a = true → validDateB b = true →
        (parseISODate b.date).getD 0 ≤ (parseISODate a.date).getD 0)
      ∧ ¬(validDateB a = false ∧ validDateB b = true)) := fun a b => instDecidableAnd
  decide

/-- C1 (amended): for scans in which every retained entry's date is empty or a
parsable ISO date (the comparator's consistent domain — a non-empty unparsable
date makes `Date.parse` return `NaN`, the comparator return `NaN` (coerced to
`0`), and the resulting order implementation-defined), the output is the
input collection stably sorted by the key `date ? Date.parse(date) : 0`
in descending order: keys are pairwise non-increasing, the output is a
permutation of the pre-sort scan, entries with equal keys keep their input
order, and an absent (empty) date is keyed at the epoch `0` — hence such
entries appear after entries with positive timestamps but *before* entries
dated before 1970. -/
theorem c1_sorted_amended (files : List SourceFile) (wpm : Nat)
    (H : ∀ e ∈ preScanList files wpm, dateKey e ≠ none) :
    (scanBlogPosts files wpm).Pairwise (fun a b => sortKey b ≤ sortKey a)
    ∧ (scanBlogPosts files wpm).Perm (preScanList files wpm)
    ∧ (∀ k : Int, (scanBlogPosts files wpm).filter (fun e => decide (sortKey e = k))
        = (preScanList files wpm).filter (fun e => decide (sortKey e = k)))
    ∧ (∀ e ∈ scanBlogPosts files wpm, e.date = "" → sortKey e = 0) := by
  have hscan := scan_eq_sortB_keyLe H
  refine ⟨?_, ?_, ?_, ?_⟩
  · rw [hscan]
    exact (pairwise_sortB keyLe_total keyLe_trans (preScanList files wpm)).imp
      (fun hxy => of_decide_eq_true hxy)
  · exact sortB_perm _ _
  · intro k
    rw [hscan]
    exact filter_sortB_key sortKey k _
  · intro e _ hdate
    unfold sortKey dateKey
    simp [hdate]

/-- Witness: the amended C1 theorem applied to a concrete two-post scan
(2024-01-01 and 2024-02-01). -/
theorem c1_sorted_amended_witness :
    (scanBlogPosts [fileJan, fileFeb] 220).Pairwise (fun a b => sortKey b ≤ sortKey a)
    ∧ (scanBlogPosts [fileJan, fileFeb] 220).Perm (preScanList [fileJan, fileFeb] 220)
    ∧ (∀ k : Int, (scanBlogPosts [fileJan, fileFeb] 220).filter (fun e => decide (sortKey e = k))
        = (preScanList [fileJan, fileFeb] 220).filter (fun e => decide (sortKey e = k)))
    ∧ (∀ e ∈ scanBlogPosts [fileJan, fileFeb] 220, e.date = "" → sortKey e = 0) :=
  c1_sorted_amended [fileJan, fileFeb] 220 (by decide)

/-! ## Claim C2 -/

/-- C2: entries whose header `published` field is `false` never appear in a
scan's output: such a file is mapped to no entry at all, and every entry of
the output originates from a file whose `published` is not `false`. -/
theorem c2_unpublished_filtered (files : List SourceFile) (wpm : Nat) :
    (∀ f ∈ files, f.fm.published = some false → extractPost wpm f = none)
    ∧ (∀ e ∈ scanBlogPosts files wpm,
        ∃ f ∈ files, extractPost wpm f = some e ∧ f.fm.published ≠ some false) := by
  constructor
  · intro f _ hpub
    unfold extractPost
    split_ifs with h1 h2
    · rfl
    · rfl
    · rfl
  · intro e he
    rcases mem_scanBlogPosts.mp he with ⟨f, hf, hex⟩
    exact ⟨f, hf, hex, (extractPost_eq_some hex).2.1⟩

/-- Witness: a concrete `published: false` post contributes nothing to the
scan, and the published entry of a two-file scan traces back to a
not-unpublished file. -/
theorem c2_unpublished_filtered_witness :
    extractPost 220 fileUnpub = none
    ∧ (∀ e ∈ scanBlogPosts [fileUnpub, fileJan] 220,
        ∃ f ∈ [fileUnpub, fileJan], extractPost 220 f = some e
          ∧ f.fm.published ≠ some false) :=
  ⟨(c2_unpublished_filtered [fileUnpub, fileJan] 220).1 fileUnpub (by simp) rfl,
   (c2_unpublished_filtered [fileUnpub, fileJan] 220).2⟩

/-! ## Claim C3 -/

/-- C3 counterexample: the qualifying test is a substring check
(`normalizedFile.includes(normalizedPostsDir)`), so a change to
`/docs/notes/blog/postscript.md` — a file *outside* the configured
`blog/posts` subdirectory — is misclassified as qualifying and triggers the
broadcast, contradicting the claim that such changes emit no event. -/
theorem c3_counterexample :
    ¬ specC3NoBroadcast [] "/docs/notes/blog/postscript.md" "/docs" "blog/posts"
      220 defaultSidebarOptions := by
  intro h
  have hins : underPostsDir "/docs/notes/blog/postscript.md" "/docs" "blog/posts" = false := by
    decide
  have hq : qualifiesHotUpdate "/docs/notes/blog/postscript.md" "blog/posts" = true := by
    decide
  have hempty := h (Or.inl hins)
  unfold handleHotUpdate at hempty
  rw [if_pos hq] at hempty
  cases hempty

/-- C3 (amended): the broadcaster emits no event whenever the normalized file
path does not contain the normalized posts directory as a substring, or the
file path does not end in `.md`. (The qualifying test is substring
containment, not containment in the directory, so paths outside the posts
subdirectory that merely contain its name as an infix are still broadcast —
the counterexample above.) -/
theorem c3_hot_update_amended (files : List SourceFile) (file postsDir : String)
    (wpm : Nat) (o : BlogSidebarOptions)
    (H : (¬ ∃ s t, (normSlashes file).data = s ++ (normSlashes postsDir).data ++ t)
       ∨ (¬ ∃ s, file.data = s ++ ".md".data)) :
    handleHotUpdate files file postsDir wpm o = [] := by
  have hq : qualifiesHotUpdate file postsDir = false := by
    unfold qualifiesHotUpdate
    rcases H with H | H
    · have hcs : containsSub (normSlashes postsDir).data (normSlashes file).data = false := by
        by_contra hx
        rcases (containsSub_iff _ _).mp (eq_true_of_ne_false hx) with ⟨s, t, hst⟩
        exact H ⟨s, t, hst⟩
      rw [hcs]
      rfl
    · have hsf : sfxB ".md".data file.data = false := by
        by_contra hx
        rcases (sfxB_iff _ _).mp (eq_true_of_ne_false hx) with ⟨s, hs⟩
        exact H ⟨s, hs⟩
      rw [hsf]
      simp
  unfold handleHotUpdate
  rw [if_neg (by simp [hq])]

/-- Witness: a change to a non-`.md` file emits nothing. -/
theorem c3_hot_update_amended_witness :
    handleHotUpdate [] "/docs/blog/posts/readme.txt" "blog/posts" 220
      defaultSidebarOptions = [] :=
  c3_hot_update_amended [] "/docs/blog/posts/readme.txt" "blog/posts" 220
    defaultSidebarOptions
    (Or.inr (fun hex => by
      have hb : sfxB ".md".data ("/docs/blog/posts/readme.txt").data = true :=
        (sfxB_iff _ _).mpr hex
      exact absurd hb (by decide)))

/-! ## Claim C6 -/

/-- C6 counterexample: the URL derivation maps two distinct scanned files to
the same URL. `blog/posts/a/index.md` becomes `/blog/posts/a/` by the
trailing-`/index` collapse, and the legal file named bare `.md` at
`blog/posts/a/.md` also becomes `/blog/posts/a/` (strip `.md`, nothing more to
collapse): one scan then contains two distinct entries with equal `url`. -/
theorem c6_counterexample : ¬ specC6UrlUnique [fileIndexMd, fileBareMd] 220 := by
  unfold specC6UrlUnique
  letI : DecidableRel (fun (a b : BlogPostEntry) => a ≠ b → a.url ≠ b.url) :=
    fun a b => inferInstance
  decide

/-- C6 (amended): within one scan, entries derived from distinct relative
paths have distinct URLs, provided no scanned path contains a backslash
character and no scanned path has the bare filename `.md` as its final
segment (i.e. does not end in `/.md`); without those provisos the derivation
can collide, as the counterexample shows. -/
theorem c6_url_unique_amended (files : List SourceFile) (wpm : Nat)
    (Hdistinct : files.Pairwise (fun f g => f.relPath ≠ g.relPath))
    (Hbs : ∀ f ∈ files, '\\' ∉ f.relPath.data)
    (Hsl : ∀ f ∈ files, sfxB "/.md".data f.relPath.data = false) :
    (scanBlogPosts files wpm).Pairwise (fun a b => a.url ≠ b.url) := by
  have hperm : (scanBlogPosts files wpm).Perm (preScanList files wpm) := sortB_perm _ _
  rw [List.Perm.pairwise_iff (fun h he => h he.symm) hperm]
  unfold preScanList
  rw [List.pairwise_filterMap]
  refine Hdistinct.imp_of_mem ?_
  intro f g hf hg hne e he e' he' hurl
  have h1 := extractPost_eq_some (Option.mem_def.mp he)
  have h2 := extractPost_eq_some (Option.mem_def.mp he')
  exact hne (urlOf_inj h1.1 h2.1 (Hbs f hf) (Hbs g hg) (Hsl f hf) (Hsl g hg)
    (by rw [← h1.2.2.1, ← h2.2.2.1, hurl]))

/-- Witness: the amended C6 theorem at a concrete two-file scan. -/
theorem c6_url_unique_amended_witness :
    (scanBlogPosts [fileJan, fileFeb] 220).Pairwise (fun a b => a.url ≠ b.url) :=
  c6_url_unique_amended [fileJan, fileFeb] 220
    (by
      letI : DecidableRel (fun (f g : SourceFile) => f.relPath ≠ g.relPath) :=
        fun f g => instDecidableNot
      decide)
    (by decide) (by decide)

/-! ## Claim C9 -/

theorem wordCount_replicate_pair :
    ∀ n : Nat, wordCountAux ((List.replicate n ['w', ' ']).flatten) false = n := by
  intro n
  induction n with
  | zero => rfl
  | succ k ih =>
    rw [List.replicate_succ, List.flatten_cons]
    have hshape : (['w', ' '] : List Char) ++ (List.replicate k ['w', ' ']).flatten
        = 'w' :: ' ' :: (List.replicate k ['w', ' ']).flatten := rfl
    rw [hshape]
    have h1 : isWsChar 'w' = false := by decide
    have h2 : isWsChar ' ' = true := by decide
    simp only [wordCountAux, h1, h2, Bool.false_eq_true, if_false, if_true, ih]
    omega

theorem wordCount_body440 : wordCount body440 = 440 :=
  wordCount_replicate_pair 440

/-- C9: every scanned entry's reading time is
`max(1, round(wordCount / wordsPerMinute))` computed from its own body's
whitespace-delimited word count, hence always at least 1; and a 440-word body
at 220 words per minute yields reading time 2. -/
theorem c9_reading_time :
    (∀ (files : List SourceFile) (wpm : Nat), 0 < wpm → ∀ e ∈ scanBlogPosts files wpm,
      1 ≤ e.readingTime
      ∧ ∃ f ∈ files, extractPost wpm f = some e
          ∧ e.readingTime = max 1 (natRound (wordCount f.body) wpm))
    ∧ (scanBlogPosts [file440] 220).map (fun e => e.readingTime) = [2] := by
  constructor
  · intro files wpm _ e he
    rcases mem_scanBlogPosts.mp he with ⟨f, hf, hex⟩
    have h := extractPost_eq_some hex
    exact ⟨h.2.2.2.2.2.2, f, hf, hex, h.2.2.2.2.2.1⟩
  · have hsome : ∃ e, extractPost 220 file440 = some e := by
      cases hex : extractPost 220 file440 with
      | some e => exact ⟨e, rfl⟩
      | none =>
        exfalso
        unfold extractPost at hex
        rw [if_neg (by decide), if_neg (by decide), if_neg (by decide)] at hex
        cases hex
    rcases hsome with ⟨e, hex⟩
    have hrt : e.readingTime = 2 := by
      have h := extractPost_eq_some hex
      rw [h.2.2.2.2.2.1]
      rw [show file440.body = body440 from rfl, wordCount_body440]
      decide
    have hpre : List.filterMap (extractPost 220) [file440] = [e] := by
      simp [hex]
    have hscan : scanBlogPosts [file440] 220 = [e] := by
      unfold scanBlogPosts preScanList
      rw [hpre]
      rfl
    rw [hscan]
    simp [hrt]

/-- Witness: every entry of a concrete two-post scan has reading time at
least 1, via the C9 theorem at words-per-minute 220. -/
theorem c9_reading_time_witness :
    (scanBlogPosts [fileJan, fileFeb] 220).all (fun e => decide (1 ≤ e.readingTime)) = true := by
  rw [List.all_eq_true]
  intro e he
  exact decide_eq_true (c9_reading_time.1 [fileJan, fileFeb] 220 (by decide) e he).1

/-! ## Claim C5 -/

/-- C5: the sidebar generator always emits the "all items" group first; with
an empty entry collection the output is exactly that one group (the recent
group is omitted entirely); a second group is only ever appended when the
collection is non-empty; and for a non-empty collection with a positive
recent count the output is exactly the "all items" group followed by the
recent group holding the first `recentCount` entries mapped to
`{text: title, link: url}`. -/
theorem c5_sidebar_groups (posts : List BlogPostEntry) (o : BlogSidebarOptions) :
    (generateBlogSidebar posts o).head? = some (blogGroup o)
    ∧ (posts = [] → generateBlogSidebar posts o = [blogGroup o])
    ∧ (∀ g, generateBlogSidebar posts o = [blogGroup o, g] → posts ≠ [])
    ∧ (posts ≠ [] → 0 < o.recentPostsCount.getD 5 →
        generateBlogSidebar posts o
          = [blogGroup o, recentGroup o (posts.take (o.recentPostsCount.getD 5))]) := by
  unfold generateBlogSidebar
  by_cases hp : (posts.take (o.recentPostsCount.getD 5)).length > 0
  · rw [if_pos hp]
    refine ⟨rfl, ?_, ?_, ?_⟩
    · intro h
      rw [h] at hp
      simp at hp
    · intro g _ hnil
      rw [hnil] at hp
      simp at hp
    · intro _ _
      rfl
  · rw [if_neg hp]
    refine ⟨rfl, fun _ => rfl, ?_, ?_⟩
    · intro g hcontra
      have := congrArg List.length hcontra
      simp at this
    · intro hne hcount
      exfalso
      apply hp
      rw [List.length_take]
      have hlen : 0 < posts.length := List.length_pos.mpr hne
      omega

/-- Witness: the C5 theorem at a concrete two-entry collection with the
default options: both groups appear, recent items mapped from the entries. -/
theorem c5_sidebar_groups_witness :
    (generateBlogSidebar [post1, post2] defaultSidebarOptions).head?
        = some (blogGroup defaultSidebarOptions)
    ∧ generateBlogSidebar [post1, post2] defaultSidebarOptions
        = [blogGroup defaultSidebarOptions,
           recentGroup defaultSidebarOptions [post1, post2]] :=
  ⟨(c5_sidebar_groups [post1, post2] defaultSidebarOptions).1,
   by
    have h := (c5_sidebar_groups [post1, post2] defaultSidebarOptions).2.2.2
      (by simp) (by decide)
    simpa using h⟩

/-! ## Claim C8 -/

/-- C8: the client's `blog-posts-update` handler replaces the held collection
wholesale with the event payload: whatever N entries were held, after an
update carrying M entries exactly the M payload entries are held (the payload
itself, so no partial or field-level merging is possible), and a non-array
payload leaves the held collection untouched. -/
theorem c8_reconcile_wholesale (held newPosts : List BlogPostEntry) :
    applyPostsUpdate held (some newPosts) = newPosts
    ∧ (applyPostsUpdate held (some newPosts)).length = newPosts.length
    ∧ applyPostsUpdate held none = held :=
  ⟨rfl, rfl, rfl⟩

/-! ## Claim C10 -/

theorem patchItems_length (ds : List RenderedItem) :
    ∀ ns : List SidebarItem, (patchItems ds ns).length = ds.length := by
  induction ds with
  | nil => intro ns; cases ns <;> rfl
  | cons d ds ih =>
    intro ns
    cases ns with
    | nil => rfl
    | cons n ns => simp [patchItems, ih]

theorem patchItems_getElem_ge (ds : List RenderedItem) :
    ∀ (ns : List SidebarItem) (k : Nat), ns.length ≤ k →
      (patchItems ds ns)[k]? = ds[k]? := by
  induction ds with
  | nil => intro ns k _; cases ns <;> rfl
  | cons d ds ih =>
    intro ns k hk
    cases ns with
    | nil => rfl
    | cons n ns =>
      cases k with
      | zero => simp at hk
      | succ k' =>
        simp only [patchItems, List.getElem?_cons_succ]
        exact ih ns k' (by simpa using hk)

theorem patchGroupsFirst_spec (ns : List SidebarItem) :
    ∀ dom : List RenderedGroup,
      (patchGroupsFirst ns dom).length = dom.length
      ∧ (∀ (i : Nat) (g : RenderedGroup), dom[i]? = some g → domTitleHasRecent g = false →
          (patchGroupsFirst ns dom)[i]? = some g)
      ∧ (∀ (i j : Nat) (gi gj : RenderedGroup), dom[i]? = some gi → dom[j]? = some gj →
          i < j → domTitleHasRecent gi = true → (patchGroupsFirst ns dom)[j]? = some gj)
      ∧ (∀ (i : Nat) (g : RenderedGroup), dom[i]? = some g →
          ∃ g' : RenderedGroup, (patchGroupsFirst ns dom)[i]? = some g'
          ∧ g'.groupTitle = g.groupTitle
          ∧ g'.groupItems.length = g.groupItems.length
          ∧ ∀ k : Nat, ns.length ≤ k → g'.groupItems[k]? = g.groupItems[k]?) := by
  intro dom
  induction dom with
  | nil =>
    refine ⟨rfl, ?_, ?_, ?_⟩
    · intro i g h; simp at h
    · intro i j gi gj h; simp at h
    · intro i g h; simp at h
  | cons g0 gs ih =>
    by_cases hmatch : domTitleHasRecent g0 = true
    · have hout : patchGroupsFirst ns (g0 :: gs) = patchGroup g0 ns :: gs := by
        show (if domTitleHasRecent g0 = true then patchGroup g0 ns :: gs
          else g0 :: patchGroupsFirst ns gs) = patchGroup g0 ns :: gs
        rw [if_pos hmatch]
      rw [hout]
      refine ⟨by simp, ?_, ?_, ?_⟩
      · intro i g hi hfalse
        cases i with
        | zero =>
          simp only [List.getElem?_cons_zero, Option.some.injEq] at hi
          rw [← hi] at hfalse
          rw [hmatch] at hfalse
          cases hfalse
        | succ i' => simpa using hi
      · intro i j gi gj _ hj hij _
        cases j with
        | zero => omega
        | succ j' => simpa using hj
      · intro i g hi
        cases i with
        | zero =>
          simp only [List.getElem?_cons_zero, Option.some.injEq] at hi
          refine ⟨patchGroup g0 ns, by simp, ?_, ?_, ?_⟩
          · rw [← hi]; rfl
          · rw [← hi]
            exact patchItems_length g0.groupItems ns
          · intro k hk
            rw [← hi]
            exact patchItems_getElem_ge g0.groupItems ns k hk
        | succ i' =>
          simp only [List.getElem?_cons_succ] at hi ⊢
          exact ⟨g, hi, rfl, rfl, fun k _ => rfl⟩
    · have hout : patchGroupsFirst ns (g0 :: gs) = g0 :: patchGroupsFirst ns gs := by
        show (if domTitleHasRecent g0 = true then patchGroup g0 ns :: gs
          else g0 :: patchGroupsFirst ns gs) = g0 :: patchGroupsFirst ns gs
        rw [if_neg hmatch]
      rw [hout]
      rcases ih with ⟨ihlen, ihskip, ihfirst, ihtail⟩
      refine ⟨by simp [ihlen], ?_, ?_, ?_⟩
      · intro i g hi hfalse
        cases i with
        | zero => simpa using hi
        | succ i' =>
          simp only [List.getElem?_cons_succ] at hi ⊢
          exact ihskip i' g hi hfalse
      · intro i j gi gj hi hj hij hgi
        cases i with
        | zero =>
          simp only [List.getElem?_cons_zero, Option.some.injEq] at hi
          rw [← hi] at hgi
          rw [hgi] at hmatch
          cases hmatch rfl
        | succ i' =>
          cases j with
          | zero => omega
          | succ j' =>
            simp only [List.getElem?_cons_succ] at hi hj ⊢
            exact ihfirst i' j' gi gj hi hj (by omega) hgi
      · intro i g hi
        cases i with
        | zero =>
          simp only [List.getElem?_cons_zero, Option.some.injEq] at hi
          exact ⟨g0, by simp, by rw [hi], by rw [hi], fun k _ => by rw [hi]⟩
        | succ i' =>
          simp only [List.getElem?_cons_succ] at hi ⊢
          exact ihtail i' g hi

/-- C10: the navigation DOM patch never inserts or removes rendered groups or
line items (group count and each group's title and item count are preserved);
groups whose title does not contain `recent` (case-insensitively) are
returned untouched; every group after the first matching one is returned
untouched (the loop breaks); and inside the patched group the rendered items
at positions beyond the new recent list are untouched, while excess new items
(beyond the rendered count) are simply not rendered — item counts never
grow. -/
theorem c10_patch_frame (sb : List SidebarItem) (dom : List RenderedGroup) :
    (patchVitePressSidebar sb dom).length = dom.length
    ∧ (∀ (i : Nat) (g : RenderedGroup), dom[i]? = some g → domTitleHasRecent g = false →
        (patchVitePressSidebar sb dom)[i]? = some g)
    ∧ (∀ (i j : Nat) (gi gj : RenderedGroup), dom[i]? = some gi → dom[j]? = some gj →
        i < j → domTitleHasRecent gi = true → (patchVitePressSidebar sb dom)[j]? = some gj)
    ∧ (∀ (i : Nat) (g : RenderedGroup), dom[i]? = some g →
        ∃ g' : RenderedGroup, (patchVitePressSidebar sb dom)[i]? = some g'
        ∧ g'.groupTitle = g.groupTitle
        ∧ g'.groupItems.length = g.groupItems.length
        ∧ ∀ k : Nat, (recentItemsOf sb).length ≤ k →
            g'.groupItems[k]? = g.groupItems[k]?) := by
  cases hf : sb.find? dataTitleHasRecent with
  | none =>
    have hval : patchVitePressSidebar sb dom = dom := by
      unfold patchVitePressSidebar
      rw [hf]
    rw [hval]
    refine ⟨rfl, fun i g hi _ => hi, fun i j gi gj _ hj _ _ => hj, ?_⟩
    intro i g hi
    exact ⟨g, hi, rfl, rfl, fun k _ => rfl⟩
  | some s =>
    cases hi : s.items with
    | none =>
      have hval : patchVitePressSidebar sb dom = dom := by
        unfold patchVitePressSidebar
        rw [hf]
        simp [hi]
      rw [hval]
      refine ⟨rfl, fun i g hig _ => hig, fun i j gi gj _ hj _ _ => hj, ?_⟩
      intro i g hig
      exact ⟨g, hig, rfl, rfl, fun k _ => rfl⟩
    | some ns =>
      have hval : patchVitePressSidebar sb dom = patchGroupsFirst ns dom := by
        unfold patchVitePressSidebar
        rw [hf]
        simp [hi]
      have hrec : recentItemsOf sb = ns := by
        unfold recentItemsOf
        rw [hf]
        simp [hi]
      rw [hval, hrec]
      exact patchGroupsFirst_spec ns dom

/-- Witness: the C10 theorem at a concrete generated sidebar and rendered
DOM: the patch keeps both rendered groups and leaves the non-matching "Blog"
group untouched. -/
theorem c10_patch_frame_witness :
    (patchVitePressSidebar (generateBlogSidebar [post1, post2] defaultSidebarOptions)
        domSample).length = domSample.length
    ∧ (patchVitePressSidebar (generateBlogSidebar [post1, post2] defaultSidebarOptions)
        domSample)[0]? = domSample[0]? :=
  ⟨(c10_patch_frame (generateBlogSidebar [post1, post2] defaultSidebarOptions) domSample).1,
   by
    have h := (c10_patch_frame (generateBlogSidebar [post1, post2] defaultSidebarOptions)
        domSample).2.1 0
        { groupTitle := "Blog",
          groupItems := [{ itemText := "All posts", itemHref := "/blog/" }] }
        (by rfl) (by decide)
    rw [h]
    rfl⟩

/-! ## Claim C4 -/

/-- C4: in the data-loader metadata extractor, a missing header `description`
falls back to the caller-supplied auto-derived excerpt (then to the empty
string when even the excerpt is absent), and every resulting description —
in the loader and in the scanner alike — has HTML-like tags stripped (no
match of the tag pattern remains), whitespace collapsed to single spaces (no
two adjacent whitespace characters, and every whitespace character is a plain
space), and is trimmed (no leading or trailing whitespace). -/
theorem c4_description_fallback_clean (p : RawPost) :
    (p.frontmatter.description = none →
      (transformPost p).description = cleanDescription (p.excerpt.getD ""))
    ∧ hasTag (transformPost p).description.data = false
    ∧ List.Chain' (fun a b => ¬(isWsChar a = true ∧ isWsChar b = true))
        (transformPost p).description.data
    ∧ (∀ c ∈ (transformPost p).description.data, isWsChar c = true → c = ' ')
    ∧ (∀ c, ((transformPost p).description.data.head? = some c → isWsChar c = false)
        ∧ ((transformPost p).description.data.getLast? = some c → isWsChar c = false))
    ∧ (∀ (files : List SourceFile) (wpm : Nat) (e : BlogPostEntry),
        e ∈ scanBlogPosts files wpm →
        hasTag e.description.data = false
        ∧ (∀ c, (e.description.data.head? = some c → isWsChar c = false)
            ∧ (e.description.data.getLast? = some c → isWsChar c = false))) := by
  have hd : (transformPost p).description
      = cleanDescription ((p.frontmatter.description).getD (p.excerpt.getD "")) := rfl
  rcases cleanDescription_props ((p.frontmatter.description).getD (p.excerpt.getD ""))
    with ⟨hp1, hp2, hp3, hp4⟩
  refine ⟨?_, ?_, ?_, ?_, ?_, ?_⟩
  · intro h
    rw [hd, h]
    rfl
  · rw [hd]; exact hp1
  · rw [hd]; exact hp2
  · rw [hd]; exact hp3
  · rw [hd]; exact hp4
  · intro files wpm e he
    rcases mem_scanBlogPosts.mp he with ⟨f, _, hex⟩
    have hdesc := (extractPost_eq_some hex).2.2.2.1
    rw [hdesc]
    rcases cleanDescription_props (f.fm.description.getD "") with ⟨hq1, _, _, hq4⟩
    exact ⟨hq1, hq4⟩

/-- Witness: the C4 theorem at a concrete raw post whose header lacks a
description: the result is the cleaned caller-supplied excerpt and it is
tag-free. -/
theorem c4_description_fallback_clean_witness :
    (transformPost rawPostSample).description
        = cleanDescription (rawPostSample.excerpt.getD "")
    ∧ hasTag (transformPost rawPostSample).description.data = false :=
  ⟨(c4_description_fallback_clean rawPostSample).1 rfl,
   (c4_description_fallback_clean rawPostSample).2.1⟩

/-! ## Lemmas: the JSON snapshot transport -/

theorem escChars_cons (c : Char) (s : List Char) :
    escChars (c :: s) = escChar c ++ escChars s := rfl

theorem parseStrA_quote (r : List Char) : parseStrA ('"' :: r) = some ([], r) := by
  simp [parseStrA]

theorem parseStrA_other {c : Char} (h1 : ¬ c = '"') (h2 : ¬ c = '\\') (r : List Char) :
    parseStrA (c :: r) = (parseStrA r).map (fun p => (c :: p.1, p.2)) := by
  rw [parseStrA]
  rw [if_neg h1, if_neg h2]

theorem parseStrA_esc {e u : Char} (hu : unescChar e = some u) (r : List Char) :
    parseStrA ('\\' :: e :: r) = (parseStrA r).map (fun p => (u :: p.1, p.2)) := by
  rw [parseStrA]
  rw [if_neg (by decide), if_pos rfl, parseStrEsc, hu]

/-- Printed-and-escaped string bodies parse back exactly, leaving the rest. -/
theorem parseStrA_escChars :
    ∀ (s rest : List Char), parseStrA (escChars s ++ '"' :: rest) = some (s, rest) := by
  intro s
  induction s with
  | nil =>
    intro rest
    show parseStrA ('"' :: rest) = some ([], rest)
    exact parseStrA_quote rest
  | cons c s' ih =>
    intro rest
    rw [escChars_cons, List.append_assoc]
    by_cases h1 : c = '"'
    · subst h1
      have he : escChar '"' = ['\\', '"'] := by decide
      rw [he]
      rw [show (['\\', '"'] : List Char) ++ (escChars s' ++ '"' :: rest)
        = '\\' :: '"' :: (escChars s' ++ '"' :: rest) from rfl]
      rw [parseStrA_esc (by decide : unescChar '"' = some '"'), ih rest]
      rfl
    · by_cases h2 : c = '\\'
      · subst h2
        have he : escChar '\\' = ['\\', '\\'] := by decide
        rw [he]
        rw [show (['\\', '\\'] : List Char) ++ (escChars s' ++ '"' :: rest)
          = '\\' :: '\\' :: (escChars s' ++ '"' :: rest) from rfl]
        rw [parseStrA_esc (by decide : unescChar '\\' = some '\\'), ih rest]
        rfl
      · by_cases h3 : c = '\n'
        · subst h3
          have he : escChar '\n' = ['\\', 'n'] := by decide
          rw [he]
          rw [show (['\\', 'n'] : List Char) ++ (escChars s' ++ '"' :: rest)
            = '\\' :: 'n' :: (escChars s' ++ '"' :: rest) from rfl]
          rw [parseStrA_esc (by decide : unescChar 'n' = some '\n'), ih rest]
          rfl
        · by_cases h4 : c = '\t'
          · subst h4
            have he : escChar '\t' = ['\\', 't'] := by decide
            rw [he]
            rw [show (['\\', 't'] : List Char) ++ (escChars s' ++ '"' :: rest)
              = '\\' :: 't' :: (escChars s' ++ '"' :: rest) from rfl]
            rw [parseStrA_esc (by decide : unescChar 't' = some '\t'), ih rest]
            rfl
          · by_cases h5 : c = '\r'
            · subst h5
              have he : escChar '\r' = ['\\', 'r'] := by decide
              rw [he]
              rw [show (['\\', 'r'] : List Char) ++ (escChars s' ++ '"' :: rest)
                = '\\' :: 'r' :: (escChars s' ++ '"' :: rest) from rfl]
              rw [parseStrA_esc (by decide : unescChar 'r' = some '\r'), ih rest]
              rfl
            · have he : escChar c = [c] := by
                unfold escChar
                rw [if_neg h1, if_neg h2, if_neg h3, if_neg h4, if_neg h5]
              rw [he]
              rw [show ([c] : List Char) ++ (escChars s' ++ '"' :: rest)
                = c :: (escChars s' ++ '"' :: rest) from rfl]
              rw [parseStrA_other h1 h2, ih rest]
              rfl

theorem digitCharOf_spec : ∀ d < 10, (digitCharOf d).isDigit = true ∧
    (digitCharOf d).toNat - 48 = d := by decide

theorem natCharsAux_spec : ∀ (fuel n : Nat), n < fuel →
    natCharsAux fuel n ≠ [] ∧ (∀ c ∈ natCharsAux fuel n, c.isDigit = true) ∧
    digitsVal (natCharsAux fuel n) = n := by
  intro fuel
  induction fuel with
  | zero => intro n hn; omega
  | succ f ih =>
    intro n hn
    by_cases hlt : n < 10
    · rw [show natCharsAux (f + 1) n = if n < 10 then [digitCharOf n]
        else natCharsAux f (n / 10) ++ [digitCharOf (n % 10)] from rfl, if_pos hlt]
      obtain ⟨hd, hv⟩ := digitCharOf_spec n hlt
      refine ⟨by simp, ?_, ?_⟩
      · intro c hc
        rw [List.mem_singleton] at hc
        rw [hc]; exact hd
      · show 10 * 0 + ((digitCharOf n).toNat - 48) = n
        rw [hv]
        omega
    · rw [show natCharsAux (f + 1) n = if n < 10 then [digitCharOf n]
        else natCharsAux f (n / 10) ++ [digitCharOf (n % 10)] from rfl, if_neg hlt]
      have hpos : 0 < n := by omega
      have hdiv : n / 10 < f := by
        have h1 : n / 10 < n := Nat.div_lt_self hpos (by omega)
        omega
      obtain ⟨hne, hall, hval⟩ := ih (n / 10) hdiv
      obtain ⟨hd, hv⟩ := digitCharOf_spec (n % 10) (Nat.mod_lt n (by omega))
      refine ⟨by simp, ?_, ?_⟩
      · intro c hc
        rw [List.mem_append, List.mem_singleton] at hc
        rcases hc with hc | hc
        · exact hall c hc
        · rw [hc]; exact hd
      · show List.foldl (fun acc c => 10 * acc + (c.toNat - 48)) 0
          (natCharsAux f (n / 10) ++ [digitCharOf (n % 10)]) = n
        rw [List.foldl_append]
        show 10 * digitsVal (natCharsAux f (n / 10)) + ((digitCharOf (n % 10)).toNat - 48) = n
        rw [hval, hv]
        omega

theorem natChars_spec (n : Nat) : natChars n ≠ [] ∧
    (∀ c ∈ natChars n, c.isDigit = true) ∧ digitsVal (natChars n) = n :=
  natCharsAux_spec (n + 1) n (Nat.lt_succ_self n)

theorem takeWhile_append_of_all {p : Char → Bool} : ∀ (l r : List Char),
    (∀ c ∈ l, p c = true) → (∀ c rs, r = c :: rs → p c = false) →
    (l ++ r).takeWhile p = l ∧ (l ++ r).dropWhile p = r := by
  intro l
  induction l with
  | nil =>
    intro r _ hr
    cases r with
    | nil => exact ⟨rfl, rfl⟩
    | cons c rs =>
      have hc : p c = false := hr c rs rfl
      constructor
      · rw [List.nil_append, List.takeWhile_cons, hc]
        simp
      · rw [List.nil_append, List.dropWhile_cons, hc]
        simp
  | cons a l' ih =>
    intro r hall hr
    have ha : p a = true := hall a (List.mem_cons_self a l')
    obtain ⟨h1, h2⟩ := ih r (fun c hc => hall c (List.mem_cons_of_mem a hc)) hr
    constructor
    · rw [List.cons_append, List.takeWhile_cons, ha, h1]
      simp
    · rw [List.cons_append, List.dropWhile_cons, ha, h2]
      simp

theorem jneed_pos : ∀ v : Json, 1 ≤ jneed v := by
  intro v
  cases v with
  | null => exact Nat.le_refl 1
  | bool b => exact Nat.le_refl 1
  | num n => exact Nat.le_refl 1
  | str s => exact Nat.le_refl 1
  | arr xs => exact Nat.le_add_right 1 _
  | obj fs => exact Nat.le_add_right 1 _

theorem printJson_head (v : Json) : ∃ c cs, printJson v = c :: cs ∧
    (c = 'n' ∨ c = 't' ∨ c = 'f' ∨ c = '"' ∨ c = '[' ∨ c = '\x7b' ∨ c.isDigit = true) := by
  cases v with
  | null => exact ⟨'n', _, rfl, Or.inl rfl⟩
  | bool b =>
    cases b with
    | true => exact ⟨'t', _, rfl, Or.inr (Or.inl rfl)⟩
    | false => exact ⟨'f', _, rfl, Or.inr (Or.inr (Or.inl rfl))⟩
  | num n =>
    obtain ⟨hne, hall, _⟩ := natChars_spec n
    have : printJson (Json.num n) = natChars n := rfl
    cases h : natChars n with
    | nil => exact absurd h hne
    | cons c cs =>
      refine ⟨c, cs, by rw [this, h], ?_⟩
      refine Or.inr (Or.inr (Or.inr (Or.inr (Or.inr (Or.inr ?_)))))
      exact hall c (h ▸ List.mem_cons_self c cs)
  | str s => exact ⟨'"', _, rfl, Or.inr (Or.inr (Or.inr (Or.inl rfl)))⟩
  | arr xs => exact ⟨'[', _, rfl, Or.inr (Or.inr (Or.inr (Or.inr (Or.inl rfl))))⟩
  | obj fs => exact ⟨'\x7b', _, rfl, Or.inr (Or.inr (Or.inr (Or.inr (Or.inr (Or.inl rfl)))))⟩

theorem headIs_cons (c x : Char) (r : List Char) : headIs c (x :: r) = decide (x = c) := rfl

theorem parseVal_null_eq (n : Nat) (r : List Char) :
    parseVal (n + 1) ('n' :: r) =
      if pfxB "ull".data r then some (.null, r.drop 3) else none := rfl

theorem parseVal_true_eq (n : Nat) (r : List Char) :
    parseVal (n + 1) ('t' :: r) =
      if pfxB "rue".data r then some (.bool true, r.drop 3) else none := rfl

theorem parseVal_false_eq (n : Nat) (r : List Char) :
    parseVal (n + 1) ('f' :: r) =
      if pfxB "alse".data r then some (.bool false, r.drop 4) else none := rfl

theorem parseVal_quote_eq (n : Nat) (r : List Char) :
    parseVal (n + 1) ('"' :: r) =
      (parseStrA r).map (fun p => (Json.str p.1, p.2)) := rfl

theorem parseVal_lbrack_eq (n : Nat) (r : List Char) :
    parseVal (n + 1) ('[' :: r) =
      if headIs ']' r then some (.arr [], r.tail)
      else (parseElems n r).map (fun p => (Json.arr p.1, p.2)) := rfl

theorem parseVal_lbrace_eq (n : Nat) (r : List Char) :
    parseVal (n + 1) ('\x7b' :: r) =
      if headIs '\x7d' r then some (.obj [], r.tail)
      else (parseFields n r).map (fun p => (Json.obj p.1, p.2)) := rfl

theorem parseVal_digit_eq (n : Nat) (c : Char) (r : List Char) (hc : c.isDigit = true) :
    parseVal (n + 1) (c :: r) =
      some (.num (digitsVal ((c :: r).takeWhile Char.isDigit)),
        (c :: r).dropWhile Char.isDigit) := by
  have h1 : ¬ c = 'n' := by intro h; rw [h] at hc; exact absurd hc (by decide)
  have h2 : ¬ c = 't' := by intro h; rw [h] at hc; exact absurd hc (by decide)
  have h3 : ¬ c = 'f' := by intro h; rw [h] at hc; exact absurd hc (by decide)
  have h4 : ¬ c = '"' := by intro h; rw [h] at hc; exact absurd hc (by decide)
  have h5 : ¬ c = '[' := by intro h; rw [h] at hc; exact absurd hc (by decide)
  have h6 : ¬ c = '\x7b' := by intro h; rw [h] at hc; exact absurd hc (by decide)
  simp only [parseVal]
  rw [if_neg h1, if_neg h2, if_neg h3, if_neg h4, if_neg h5, if_neg h6, if_pos hc]

theorem parseElems_some_eq (n : Nat) (l : List Char) (x : Json) (r : List Char)
    (h : parseVal n l = some (x, r)) :
    parseElems (n + 1) l =
      if headIs ',' r then (parseElems n r.tail).map (fun p => (x :: p.1, p.2))
      else if headIs ']' r then some ([x], r.tail) else none := by
  simp only [parseElems, h]

theorem parseFields_step_eq (n : Nat) (l : List Char) (k : List Char) (r1 : List Char)
    (v : Json) (r2 : List Char)
    (hq : headIs '"' l = true) (hs : parseStrA l.tail = some (k, r1))
    (hc : headIs ':' r1 = true) (hv : parseVal n r1.tail = some (v, r2)) :
    parseFields (n + 1) l =
      if headIs ',' r2 then (parseFields n r2.tail).map (fun p => ((k, v) :: p.1, p.2))
      else if headIs '\x7d' r2 then some ([(k, v)], r2.tail) else none := by
  simp only [parseFields, hq, if_true, hs, hc, hv]

theorem jneedElems_cons (x : Json) (xs : List Json) :
    jneedElems (x :: xs) = 1 + jneed x + jneedElems xs := rfl

theorem jneedFields_cons (k : List Char) (v : Json) (fs : List (List Char × Json)) :
    jneedFields ((k, v) :: fs) = 1 + jneed v + jneedFields fs := rfl

theorem jneed_arr_eq (xs : List Json) : jneed (.arr xs) = 1 + jneedElems xs := rfl

theorem jneed_obj_eq (fs : List (List Char × Json)) : jneed (.obj fs) = 1 + jneedFields fs := rfl

theorem printElems_cons_shape (x : Json) (xs : List Json) :
    ∃ t, printElems (x :: xs) = printJson x ++ t := by
  cases xs with
  | nil => exact ⟨[], by rw [show printElems [x] = printJson x from rfl, List.append_nil]⟩
  | cons y ys => exact ⟨',' :: printElems (y :: ys), rfl⟩

theorem printFields_cons_shape (k : List Char) (v : Json) (fs : List (List Char × Json)) :
    ∃ t, printFields ((k, v) :: fs) = '"' :: t := by
  cases fs with
  | nil => exact ⟨escChars k ++ '"' :: ':' :: printJson v, rfl⟩
  | cons f fs' =>
    obtain ⟨k2, v2⟩ := f
    exact ⟨(escChars k ++ '"' :: ':' :: printJson v) ++ ',' :: printFields ((k2, v2) :: fs'),
      rfl⟩

theorem headIs_close_printJson_append (b : Char) (hb : b = ']' ∨ b = '\x7d')
    (v : Json) (t : List Char) : headIs b (printJson v ++ t) = false := by
  obtain ⟨c, cs, hc, hstart⟩ := printJson_head v
  rw [hc, List.cons_append, headIs_cons]
  apply decide_eq_false_iff_not.mpr
  intro hEq
  rcases hb with rfl | rfl <;>
    rcases hstart with h|h|h|h|h|h|h <;>
      first
        | (rw [h] at hEq; exact absurd hEq (by decide))
        | (rw [hEq] at h; exact absurd h (by decide))

theorem headIs_rbrack_printElems (x : Json) (xs : List Json) (r : List Char) :
    headIs ']' (printElems (x :: xs) ++ r) = false := by
  obtain ⟨t, ht⟩ := printElems_cons_shape x xs
  rw [ht, List.append_assoc]
  exact headIs_close_printJson_append ']' (Or.inl rfl) x (t ++ r)

theorem headIs_rbrace_printFields (k : List Char) (v : Json) (fs : List (List Char × Json))
    (r : List Char) : headIs '\x7d' (printFields ((k, v) :: fs) ++ r) = false := by
  obtain ⟨t, ht⟩ := printFields_cons_shape k v fs
  rw [ht, List.cons_append, headIs_cons]
  decide

/-- Every printed value parses back to itself, consuming exactly the printed
text, provided the fuel covers the parse and (for numbers) the remainder does
not begin with a digit. -/
theorem print_parse_roundtrip : ∀ n : Nat,
    (∀ (v : Json) (rest : List Char), jneed v ≤ n →
      (∀ c rs, rest = c :: rs → c.isDigit = false) →
      parseVal n (printJson v ++ rest) = some (v, rest)) ∧
    (∀ (x : Json) (xs : List Json) (rest : List Char), jneedElems (x :: xs) ≤ n →
      parseElems n (printElems (x :: xs) ++ ']' :: rest) = some (x :: xs, rest)) ∧
    (∀ (k : List Char) (v : Json) (fs : List (List Char × Json)) (rest : List Char),
      jneedFields ((k, v) :: fs) ≤ n →
      parseFields n (printFields ((k, v) :: fs) ++ '\x7d' :: rest)
        = some ((k, v) :: fs, rest)) := by
  intro n
  induction n using Nat.strong_induction_on with
  | _ n ihs =>
    cases n with
    | zero =>
      refine ⟨?_, ?_, ?_⟩
      · intro v rest hj _
        exact absurd hj (by have := jneed_pos v; omega)
      · intro x xs rest hj
        rw [jneedElems_cons] at hj
        exact absurd hj (by omega)
      · intro k v fs rest hj
        rw [jneedFields_cons] at hj
        exact absurd hj (by omega)
    | succ m =>
      obtain ⟨ih1, ih2, ih3⟩ := ihs m (Nat.lt_succ_self m)
      refine ⟨?_, ?_, ?_⟩
      · intro v rest hj hrest
        cases v with
        | null =>
          rw [show printJson Json.null ++ rest = 'n' :: ("ull".data ++ rest) from rfl,
            parseVal_null_eq, if_pos (pfxB_append_self "ull".data rest)]
          rfl
        | bool b =>
          cases b with
          | true =>
            rw [show printJson (Json.bool true) ++ rest = 't' :: ("rue".data ++ rest) from rfl,
              parseVal_true_eq, if_pos (pfxB_append_self "rue".data rest)]
            rfl
          | false =>
            rw [show printJson (Json.bool false) ++ rest
                = 'f' :: ("alse".data ++ rest) from rfl,
              parseVal_false_eq, if_pos (pfxB_append_self "alse".data rest)]
            rfl
        | num k =>
          obtain ⟨hne, hall, hval⟩ := natChars_spec k
          obtain ⟨c, cs, hcs⟩ : ∃ c cs, natChars k = c :: cs := by
            cases h : natChars k with
            | nil => exact absurd h hne
            | cons c cs => exact ⟨c, cs, rfl⟩
          have hc : c.isDigit = true := hall c (by rw [hcs]; exact List.mem_cons_self c cs)
          have hallcs : ∀ d ∈ c :: cs, d.isDigit = true :=
            fun d hd => hall d (by rw [hcs]; exact hd)
          have hprint : printJson (Json.num k) ++ rest = c :: (cs ++ rest) := by
            rw [show printJson (Json.num k) = natChars k from rfl, hcs]
            rfl
          rw [hprint, parseVal_digit_eq m c (cs ++ rest) hc]
          obtain ⟨htake, hdrop⟩ := takeWhile_append_of_all (c :: cs) rest hallcs hrest
          rw [show c :: (cs ++ rest) = (c :: cs) ++ rest from rfl, htake, hdrop]
          have hdv : digitsVal (c :: cs) = k := by rw [← hcs]; exact hval
          rw [hdv]
        | str s =>
          have hL : printJson (Json.str s) ++ rest = '"' :: (escChars s ++ '"' :: rest) := by
            rw [show printJson (Json.str s) = '"' :: (escChars s ++ ['"']) from rfl]
            rw [List.cons_append, List.append_assoc]
            rfl
          rw [hL, parseVal_quote_eq, parseStrA_escChars s rest]
          rfl
        | arr xs =>
          cases xs with
          | nil =>
            rw [show printJson (Json.arr []) ++ rest = '[' :: (']' :: rest) from rfl,
              parseVal_lbrack_eq,
              if_pos (show headIs ']' (']' :: rest) = true from rfl)]
            rfl
          | cons x xs' =>
            have hL : printJson (Json.arr (x :: xs')) ++ rest
                = '[' :: (printElems (x :: xs') ++ ']' :: rest) := by
              rw [show printJson (Json.arr (x :: xs'))
                  = '[' :: (printElems (x :: xs') ++ [']']) from rfl]
              rw [List.cons_append, List.append_assoc]
              rfl
            have hA : jneedElems (x :: xs') ≤ m := by
              rw [jneed_arr_eq] at hj
              omega
            rw [hL, parseVal_lbrack_eq,
              if_neg (by rw [headIs_rbrack_printElems x xs' (']' :: rest)]; decide),
              ih2 x xs' rest hA]
            rfl
        | obj fs =>
          cases fs with
          | nil =>
            rw [show printJson (Json.obj []) ++ rest = '\x7b' :: ('\x7d' :: rest) from rfl,
              parseVal_lbrace_eq,
              if_pos (show headIs '\x7d' ('\x7d' :: rest) = true from rfl)]
            rfl
          | cons f fs' =>
            obtain ⟨k, v⟩ := f
            have hL : printJson (Json.obj ((k, v) :: fs')) ++ rest
                = '\x7b' :: (printFields ((k, v) :: fs') ++ '\x7d' :: rest) := by
              rw [show printJson (Json.obj ((k, v) :: fs'))
                  = '\x7b' :: (printFields ((k, v) :: fs') ++ ['\x7d']) from rfl]
              rw [List.cons_append, List.append_assoc]
              rfl
            have hA : jneedFields ((k, v) :: fs') ≤ m := by
              rw [jneed_obj_eq] at hj
              omega
            rw [hL, parseVal_lbrace_eq,
              if_neg (by rw [headIs_rbrace_printFields k v fs' ('\x7d' :: rest)]; decide),
              ih3 k v fs' rest hA]
            rfl
      · intro x xs rest hj
        rw [jneedElems_cons] at hj
        cases xs with
        | nil =>
          have hx : jneed x ≤ m := by omega
          have hv := ih1 x (']' :: rest) hx
            (fun c rs h => by injection h with h1 _; rw [← h1]; decide)
          rw [show printElems [x] ++ ']' :: rest = printJson x ++ ']' :: rest from
              by rw [show printElems [x] = printJson x from rfl],
            parseElems_some_eq m _ x (']' :: rest) hv,
            if_neg (by rw [headIs_cons]; decide),
            if_pos (show headIs ']' (']' :: rest) = true from rfl)]
          rfl
        | cons y ys =>
          have hx : jneed x ≤ m := by have := jneed_pos x; omega
          have hy : jneedElems (y :: ys) ≤ m := by
            have := jneed_pos x
            rw [jneedElems_cons] at hj ⊢
            omega
          have hL : printElems (x :: y :: ys) ++ ']' :: rest
              = printJson x ++ ',' :: (printElems (y :: ys) ++ ']' :: rest) := by
            rw [show printElems (x :: y :: ys)
                = printJson x ++ ',' :: printElems (y :: ys) from rfl, List.append_assoc]
            rfl
          have hv := ih1 x (',' :: (printElems (y :: ys) ++ ']' :: rest)) hx
            (fun c rs h => by injection h with h1 _; rw [← h1]; decide)
          rw [hL, parseElems_some_eq m _ x _ hv,
            if_pos (show headIs ','
              (',' :: (printElems (y :: ys) ++ ']' :: rest)) = true from rfl),
            show (',' :: (printElems (y :: ys) ++ ']' :: rest)).tail
              = printElems (y :: ys) ++ ']' :: rest from rfl,
            ih2 y ys rest hy]
          rfl
      · intro k v fs rest hj
        rw [jneedFields_cons] at hj
        cases fs with
        | nil =>
          have hx : jneed v ≤ m := by omega
          have hL : printFields ((k, v) :: []) ++ '\x7d' :: rest
              = '"' :: (escChars k ++ '"' :: (':' :: (printJson v ++ '\x7d' :: rest))) := by
            rw [show printFields ((k, v) :: [])
                = '"' :: (escChars k ++ '"' :: ':' :: printJson v) from rfl]
            rw [List.cons_append, List.append_assoc]
            rfl
          have hv := ih1 v ('\x7d' :: rest) hx
            (fun c rs h => by injection h with h1 _; rw [← h1]; decide)
          rw [hL, parseFields_step_eq m
            ('"' :: (escChars k ++ '"' :: (':' :: (printJson v ++ '\x7d' :: rest)))) k
            (':' :: (printJson v ++ '\x7d' :: rest)) v
            ('\x7d' :: rest) (by rw [headIs_cons]; decide)
            (parseStrA_escChars k (':' :: (printJson v ++ '\x7d' :: rest)))
            (by rw [headIs_cons]; decide) hv,
            if_neg (by rw [headIs_cons]; decide),
            if_pos (show headIs '\x7d' ('\x7d' :: rest) = true from rfl)]
          rfl
        | cons f fs' =>
          obtain ⟨k2, v2⟩ := f
          have hx : jneed v ≤ m := by have := jneed_pos v; omega
          have hy : jneedFields ((k2, v2) :: fs') ≤ m := by
            have := jneed_pos v
            rw [jneedFields_cons] at hj ⊢
            omega
          have hL : printFields ((k, v) :: (k2, v2) :: fs') ++ '\x7d' :: rest
              = '"' :: (escChars k ++ '"' :: (':' :: (printJson v
                  ++ ',' :: (printFields ((k2, v2) :: fs') ++ '\x7d' :: rest)))) := by
            rw [show printFields ((k, v) :: (k2, v2) :: fs')
                = ('"' :: (escChars k ++ '"' :: ':' :: printJson v))
                  ++ ',' :: printFields ((k2, v2) :: fs') from rfl]
            simp only [List.cons_append, List.append_assoc]
          have hv := ih1 v (',' :: (printFields ((k2, v2) :: fs') ++ '\x7d' :: rest)) hx
            (fun c rs h => by injection h with h1 _; rw [← h1]; decide)
          rw [hL, parseFields_step_eq m
            ('"' :: (escChars k ++ '"' :: (':' :: (printJson v
              ++ ',' :: (printFields ((k2, v2) :: fs') ++ '\x7d' :: rest))))) k
            (':' :: (printJson v ++ ',' :: (printFields ((k2, v2) :: fs') ++ '\x7d' :: rest)))
            v (',' :: (printFields ((k2, v2) :: fs') ++ '\x7d' :: rest))
            (by rw [headIs_cons]; decide)
            (parseStrA_escChars k
              (':' :: (printJson v ++ ',' :: (printFields ((k2, v2) :: fs') ++ '\x7d' :: rest))))
            (by rw [headIs_cons]; decide) hv,
            if_pos (show headIs ','
              (',' :: (printFields ((k2, v2) :: fs') ++ '\x7d' :: rest)) = true from rfl),
            show (',' :: (printFields ((k2, v2) :: fs') ++ '\x7d' :: rest)).tail
              = printFields ((k2, v2) :: fs') ++ '\x7d' :: rest from rfl,
            ih3 k2 v2 fs' rest hy]
          rfl

theorem jneed_le_printJson : ∀ N : Nat,
    (∀ v : Json, jneed v = N → jneed v ≤ (printJson v).length) ∧
    (∀ xs : List Json, jneedElems xs = N → jneedElems xs ≤ (printElems xs).length + 1) ∧
    (∀ fs : List (List Char × Json), jneedFields fs = N →
      jneedFields fs ≤ (printFields fs).length + 1) := by
  intro N
  induction N using Nat.strong_induction_on with
  | _ N ihs =>
    refine ⟨?_, ?_, ?_⟩
    · intro v hN
      cases v with
      | null => decide
      | bool b => cases b <;> decide
      | num k =>
        obtain ⟨hne, _, _⟩ := natChars_spec k
        have h1 : 1 ≤ (natChars k).length := List.length_pos.mpr hne
        rw [show jneed (Json.num k) = 1 from rfl,
          show printJson (Json.num k) = natChars k from rfl]
        exact h1
      | str s =>
        rw [show jneed (Json.str s) = 1 from rfl,
          show printJson (Json.str s) = '"' :: (escChars s ++ ['"']) from rfl]
        simp
      | arr xs =>
        rw [jneed_arr_eq] at hN
        have hj : jneedElems xs < N := by omega
        have h2 := (ihs (jneedElems xs) hj).2.1 xs rfl
        rw [jneed_arr_eq,
          show printJson (Json.arr xs) = '[' :: (printElems xs ++ [']']) from rfl]
        simp only [List.length_cons, List.length_append]
        omega
      | obj fs =>
        rw [jneed_obj_eq] at hN
        have hj : jneedFields fs < N := by omega
        have h2 := (ihs (jneedFields fs) hj).2.2 fs rfl
        rw [jneed_obj_eq,
          show printJson (Json.obj fs) = '\x7b' :: (printFields fs ++ ['\x7d']) from rfl]
        simp only [List.length_cons, List.length_append]
        omega
    · intro xs hN
      cases xs with
      | nil => decide
      | cons x xs' =>
        rw [jneedElems_cons] at hN
        have hx : jneed x < N := by omega
        have h1 := (ihs (jneed x) hx).1 x rfl
        cases xs' with
        | nil =>
          rw [jneedElems_cons, show printElems [x] = printJson x from rfl]
          have h0 : jneedElems ([] : List Json) = 0 := rfl
          omega
        | cons y ys =>
          have hy : jneedElems (y :: ys) < N := by have := jneed_pos x; omega
          have h2 := (ihs (jneedElems (y :: ys)) hy).2.1 (y :: ys) rfl
          rw [jneedElems_cons,
            show printElems (x :: y :: ys)
              = printJson x ++ ',' :: printElems (y :: ys) from rfl]
          simp only [List.length_append, List.length_cons]
          omega
    · intro fs hN
      cases fs with
      | nil => decide
      | cons f fs' =>
        obtain ⟨k, v⟩ := f
        rw [jneedFields_cons] at hN
        have hx : jneed v < N := by omega
        have h1 := (ihs (jneed v) hx).1 v rfl
        cases fs' with
        | nil =>
          rw [jneedFields_cons,
            show printFields [(k, v)]
              = '"' :: (escChars k ++ '"' :: ':' :: printJson v) from rfl]
          have h0 : jneedFields ([] : List (List Char × Json)) = 0 := rfl
          simp only [List.length_cons, List.length_append]
          omega
        | cons f2 fs'' =>
          obtain ⟨k2, v2⟩ := f2
          have hy : jneedFields ((k2, v2) :: fs'') < N := by have := jneed_pos v; omega
          have h2 := (ihs (jneedFields ((k2, v2) :: fs'')) hy).2.2 ((k2, v2) :: fs'') rfl
          rw [jneedFields_cons,
            show printFields ((k, v) :: (k2, v2) :: fs'')
              = ('"' :: (escChars k ++ '"' :: ':' :: printJson v))
                ++ ',' :: printFields ((k2, v2) :: fs'') from rfl]
          simp only [List.length_cons, List.length_append]
          omega

theorem parseJsonString_printJson (v : Json) :
    parseJsonString (String.mk (printJson v)) = some v := by
  have hlen := (jneed_le_printJson (jneed v)).1 v rfl
  have hmain := (print_parse_roundtrip ((printJson v).length + 1)).1 v []
    (by omega) (fun c rs h => by simp at h)
  rw [List.append_nil] at hmain
  simp only [parseJsonString]
  rw [hmain]

theorem decodeStrList_encoded : ∀ ts : List String,
    decodeStrList (ts.map (fun t => Json.str t.data)) = some ts := by
  intro ts
  induction ts with
  | nil => rfl
  | cons t ts ih =>
    show (decodeStrList (ts.map (fun t => Json.str t.data))).map
      (fun r => String.mk t.data :: r) = some (t :: ts)
    rw [ih]
    rfl

theorem decodeEntry_encodeEntry (e : BlogPostEntry) :
    decodeEntry (encodeEntry e) = some e := by
  obtain ⟨title, description, date, tags, author, url, slug, readingTime,
    cover, source, published⟩ := e
  cases cover with
  | none =>
    show (decodeStrList (tags.map (fun t => Json.str t.data))).bind
      (fun tg => some (BlogPostEntry.mk title description date tg author url slug
        readingTime none source published)) = some _
    rw [decodeStrList_encoded]
    rfl
  | some c =>
    show (decodeStrList (tags.map (fun t => Json.str t.data))).bind
      (fun tg => some (BlogPostEntry.mk title description date tg author url slug
        readingTime (some c) source published)) = some _
    rw [decodeStrList_encoded]
    rfl

theorem decodeEntries_encoded : ∀ ps : List BlogPostEntry,
    decodeEntries (ps.map encodeEntry) = some ps := by
  intro ps
  induction ps with
  | nil => rfl
  | cons p ps ih =>
    show (match decodeEntry (encodeEntry p), decodeEntries (ps.map encodeEntry) with
      | some e, some es => some (e :: es)
      | _, _ => none) = some (p :: ps)
    rw [decodeEntry_encodeEntry, ih]

/-- C7: for every entry collection produced by a scan, serializing it into the
embedded snapshot (the JSON text of the tagged script block injected into the
output head) and parsing it back on the client yields a collection equal
field-for-field to the one that was scanned. -/
theorem c7_snapshot_roundtrip (ps : List BlogPostEntry) :
    decodeSnapshot (embedSnapshot ps) = some ps := by
  unfold decodeSnapshot embedSnapshot
  rw [parseJsonString_printJson (encodePosts ps)]
  show decodeEntries (ps.map encodeEntry) = some ps
  exact decodeEntries_encoded ps
